import Mathlib

/-!
Verification of the Acadian Variant growth-and-yield engine (acd).

Shallow embedding of the stand/tree simulation core (`stand.cpp`, `tree.cpp`)
over exact arithmetic: `ℚ` where the algorithms are pure bookkeeping
(sorting, cumulative sums, weighted averages, clamping), `ℝ` where the
empirical equations use `exp`, `log`, `sqrt` or `pow`.  C++ `double` values
are idealised as exact rationals/reals; `std::pow(x,y)` on non-negative
bases is `Real.rpow`; division by zero in ℝ/ℚ is Lean's `0`-convention,
which agrees observably with the C++ NaN behaviour at every place it can
arise here (each such quotient is only consumed through a `> 0` guard that
rejects both NaN and 0).
-/

namespace ACD

/-- A tree record as seen by the stand statistics engine
(`STAND::compute_ba_tph_bal`, `STAND::compute_topht`): the measured state
that those traversals read (`dbh`, `ht`, `tph`, `ba`, softwood flag) plus
the derived competition fields they write. -/
structure TreeRec where
  dbh : ℚ
  ht : ℚ
  tph : ℚ
  ba : ℚ
  sw : Bool
  bal : ℚ := 0
  bal_sw : ℚ := 0
  bal_hw : ℚ := 0
deriving DecidableEq, Repr

/-- The measured part of a record (everything `compute_ba_tph_bal` reads but
does not write). -/
def TreeRec.strip (t : TreeRec) : ℚ × ℚ × ℚ × ℚ × Bool :=
  (t.dbh, t.ht, t.tph, t.ba, t.sw)

/-- Descending order on a rational key: the sort relation used by
`sort_indices` (stable sort, larger keys first). -/
def keyGE (key : TreeRec → ℚ) (a b : TreeRec) : Prop := key b ≤ key a

instance keyGE_decidable (key : TreeRec → ℚ) : DecidableRel (keyGE key) := by
  intro a b
  unfold keyGE
  infer_instance

instance keyGE_total (key : TreeRec → ℚ) : IsTotal TreeRec (keyGE key) :=
  ⟨fun a b => le_total (key b) (key a)⟩

instance keyGE_trans (key : TreeRec → ℚ) : IsTrans TreeRec (keyGE key) :=
  ⟨fun _ _ _ h1 h2 => le_trans h2 h1⟩

/-- `sort_indices(v, use_dbh)` (stand.cpp:19): produce the tree list in
decreasing order of the chosen key.  (The C++ sorts an index vector with a
stable sort; we model the induced reordering of the records directly.) -/
def sortDesc (key : TreeRec → ℚ) (l : List TreeRec) : List TreeRec :=
  l.insertionSort (keyGE key)

/-- Sum of the basal areas of the records of `l` whose diameter is strictly
greater than `d` (the quantity the BAL tie-break invariant talks about). -/
def gtSum (l : List TreeRec) (d : ℚ) : ℚ :=
  (l.map (fun t => if d < t.dbh then t.ba else 0)).sum

/-- Sum of basal area over a record list. -/
def baSum (l : List TreeRec) : ℚ := (l.map (·.ba)).sum

/-- Running state of the BAL traversal in `STAND::compute_ba_tph_bal`
(stand.cpp:63-131): the overall running total `run` (`_bal`), the tie-group
baseline `pending`, the last diameter seen `lastD` (`last_dbh`, seeded with
9999), and the softwood copies of the three. -/
structure BalState where
  lastD : ℚ
  pending : ℚ
  run : ℚ
  lastDsw : ℚ
  pendingSw : ℚ
  runSw : ℚ
deriving DecidableEq, Repr

/-- Initial state of the BAL traversal (stand.cpp:65-70). -/
def balInit : BalState :=
  { lastD := 9999, pending := 0, run := 0, lastDsw := 9999, pendingSw := 0, runSw := 0 }

/-- One step of the BAL traversal body (stand.cpp:91-127) on the next record
in sorted order.  Returns `none` on the out-of-order `throw` branches. -/
def balStep (s : BalState) (t : TreeRec) : Option (BalState × TreeRec) :=
  if t.dbh < s.lastD then
    balStepSw { s with pending := s.run, run := s.run + t.ba, lastD := t.dbh }
      { t with bal := s.run }
  else if t.dbh = s.lastD then
    balStepSw { s with run := s.run + t.ba } { t with bal := s.pending }
  else
    none
where
  /-- The softwood half of the traversal body (stand.cpp:105-127). -/
  balStepSw (s : BalState) (t : TreeRec) : Option (BalState × TreeRec) :=
    if t.sw then
      if t.dbh < s.lastDsw then
        some ({ s with pendingSw := s.runSw, runSw := s.runSw + t.ba, lastDsw := t.dbh },
              { t with bal_sw := s.runSw, bal_hw := t.bal - s.runSw })
      else if t.dbh = s.lastDsw then
        some ({ s with runSw := s.runSw + t.ba },
              { t with bal_sw := s.pendingSw, bal_hw := t.bal - s.pendingSw })
      else
        none
    else
      some (s, { t with bal_sw := s.runSw, bal_hw := t.bal - s.runSw })

/-- The BAL traversal over a (sorted) record list. -/
def balFold (s : BalState) : List TreeRec → Option (List TreeRec)
  | [] => some []
  | t :: ts =>
    match balStep s t with
    | none => none
    | some (s', t') => (balFold s' ts).map (fun out => t' :: out)

/-- `STAND::compute_ba_tph_bal` (stand.cpp:63-131), restricted to the fields
the BAL tie-break claim is about: traverse the list in decreasing diameter
order assigning `bal`, `bal_sw`, `bal_hw` per record.  The stand totals the
same loop accumulates (`ba`, `tph`, `bf_ba`, `ithw_ba`) are order-independent
sums and are modelled by `baSum`-style sums where needed.  `none` models the
`throw` on an out-of-order diameter. -/
def compute_ba_tph_bal (l : List TreeRec) : Option (List TreeRec) :=
  balFold balInit (sortDesc (·.dbh) l)

/-- One step of the top-height accumulation loop (stand.cpp:325-337):
state is `(sum_ht, sum_tph)`. -/
def tophtStep (s : ℚ × ℚ) (t : TreeRec) : ℚ × ℚ :=
  if s.2 + t.tph ≤ 100 then (s.1 + t.ht * t.tph, s.2 + t.tph)
  else if s.2 < 100 then (s.1 + t.ht * (100 - s.2), (100 : ℚ))
  else s

/-- `STAND::compute_topht` (stand.cpp:320-345): average height of the
tallest cumulative 100 trees per hectare. -/
def compute_topht (l : List TreeRec) : ℚ :=
  let r := (sortDesc (·.ht) l).foldl tophtStep (0, 0)
  if 0 < r.2 then r.1 / r.2 else 0

/-- Total represented density of a record list. -/
def tphSum (l : List TreeRec) : ℚ := (l.map (·.tph)).sum

/-- Density-weighted height sum of a record list. -/
def htTphSum (l : List TreeRec) : ℚ := (l.map (fun t => t.ht * t.tph)).sum

/-- Modelled from the spec (§4.2 Top height: "accumulate density until a
100-trees-per-hectare cumulative threshold is reached, weighting the final
partial tree by only the remaining fraction needed to reach exactly 100"):
the density weight the top-100 cohort gives each record of a
descending-height list, given the density `a` already accumulated in front
of it. -/
def cohortWeights : ℚ → List TreeRec → List ℚ
  | _, [] => []
  | a, t :: ts => min t.tph (max (100 - a) 0) :: cohortWeights (a + t.tph) ts

/-- Height sum weighted by the top-100 cohort weights, starting from an
already-accumulated density `a`. -/
def wsum : ℚ → List TreeRec → ℚ
  | _, [] => 0
  | a, t :: ts => t.ht * min t.tph (max (100 - a) 0) + wsum (a + t.tph) ts

/-- The constant `0.00007854` converting squared diameter (cm²) times density
to basal area per hectare (tree.cpp:126). -/
def baK : ℚ := 7854 / 100000000

/-- A tree record together with its per-period transient growth deltas, as
read and written by `TREE::apply_growth_mortality` (tree.cpp:706-730).
Generic over the ordered field so the same definition serves the exact
rational witnesses and the real-valued mortality chain. -/
structure GrowRec (K : Type) where
  dbh : K
  ht : K
  hcb : K
  cr : K
  tph : K
  ba : K
  ddbh : K
  dht : K
  dhcb : K
  dtph : K
  psurv : K

/-- `TREE::apply_growth_mortality` (tree.cpp:706-730): increment dimensions,
clamp the crown base to total height, recompute crown ratio and basal area,
reduce density by the mortality decrement (clamped to the available
density), and reset the transient deltas (`TREE::reset`, tree.cpp:97-104).
The crown-width updates (`compute_mcw`/`lcw`/`mca`) touch no field this
development reads and are omitted. -/
def apply_growth_mortality {K : Type} [LinearOrderedField K] (t : GrowRec K) : GrowRec K :=
  let dbh' := t.dbh + t.ddbh
  let ht' := t.ht + t.dht
  let hcb0 := t.hcb + t.dhcb
  let hcb' := if ht' < hcb0 then ht' else hcb0
  let cr' := (ht' - hcb') / ht'
  let tph' := t.tph - (if t.dtph ≤ t.tph then t.dtph else t.tph)
  { dbh := dbh', ht := ht', hcb := hcb', cr := cr', tph := tph',
    ba := dbh' * dbh' * ((7854 : K) / 100000000) * tph',
    ddbh := 0, dht := 0, dhcb := 0, dtph := 0, psurv := 1 }

/-- The error taxonomy of `STAND::STAND` (stand.cpp:37-55): both failure
branches throw `std::invalid_argument`; we distinguish them by which check
fired. -/
inductive ConfigErr where
  | invalidRegion : ConfigErr
  | invalidCSI : ConfigErr
deriving DecidableEq, Repr

/-- `STAND::STAND` (stand.cpp:37-55): region must be "ME" or "NB" (checked
first), then the climate site index must be strictly positive; otherwise
the constructor throws. -/
def standCtor (region : String) (csi : ℚ) : Except ConfigErr Unit :=
  if region ≠ "ME" ∧ region ≠ "NB" then Except.error ConfigErr.invalidRegion
  else if csi ≤ 0 then Except.error ConfigErr.invalidCSI
  else Except.ok ()

/-- The driver sequencing of `grow_acd` (acd_r.cpp:101-114): the `STAND`
constructor runs before any `TREE` is built, and a constructor exception
skips the tree-ingestion loop entirely. -/
def growDriver {A : Type} (region : String) (csi : ℚ) (trees : List A) :
    Except ConfigErr (List A) := do
  let _ ← standCtor region csi
  pure trees

/-- A tree record as seen by the expand/collapse machinery
(`STAND::expand_tree_list`, `STAND::unexpand_tree_list`,
stand.cpp:399-516).  `eid` models the C++ `expand_tree_id`, an
`unsigned long` into which `-1` is stored as a consumed marker; since the
C++ comparisons on it are `> 0` (on an unsigned value, i.e. `≠ 0`) and
`!=`, an integer `eid` with the guards written as `≠` is observationally
identical. -/
structure ScaleRec where
  plot : ℕ
  tid : ℕ
  eid : ℤ
  dbh : ℚ
  ht : ℚ
  hcb : ℚ
  cr : ℚ
  tph : ℚ
  ba : ℚ
deriving DecidableEq, Repr

/-- `TREE::compute_attributes` (tree.cpp:124-130) restricted to the fields
this development reads: recompute basal area from diameter and density.
(The crown fields it also refreshes are not read anywhere here.) -/
def recomputeBa (t : ScaleRec) : ScaleRec :=
  { t with ba := t.dbh * t.dbh * baK * t.tph }

/-- Build one synthetic expansion record (stand.cpp:425-433 and 438-445):
copy the source record, tag it `eid`, jitter the diameter by the next
random draw, jitter the height by the following draw only when the height
is positive (the C++ conditional operator draws from the generator only in
its taken branch), set its density, and recompute attributes.  Returns the
record and the next unconsumed position of the random stream. -/
def mkSynth (rng : ℕ → ℚ) (t : ScaleRec) (k : ℕ) (eid : ℤ) (newTph : ℚ) :
    ScaleRec × ℕ :=
  let d := t.dbh + rng k
  if 0 < t.ht then
    (recomputeBa { t with eid := eid, dbh := d, ht := t.ht + rng (k + 1), tph := newTph }, k + 2)
  else
    (recomputeBa { t with eid := eid, dbh := d, tph := newTph }, k + 1)

/-- The inner synthetic-record loop of `STAND::expand_tree_list`
(stand.cpp:423-434): create `m` copies carrying exactly the threshold
density, with expand ids `j+1, j+2, ...`. -/
def synthLoop (rng : ℕ → ℚ) (thr : ℚ) (t : ScaleRec) : ℤ → ℕ → ℕ → List ScaleRec × ℕ
  | _, k, 0 => ([], k)
  | j, k, m + 1 =>
    let s := mkSynth rng t k (j + 1) thr
    let r := synthLoop rng thr t (j + 1) s.2 m
    (s.1 :: r.1, r.2)

/-- Process one record of `STAND::expand_tree_list` (stand.cpp:413-452):
if its density exceeds the threshold, split off `trunc(tph/thr) - 1`
synthetic records at the threshold density, one remainder record if the
density does not divide evenly, and overwrite the original with the
threshold density and the next expand id.  Returns the (possibly modified)
original, the records to append, and the next random-stream position. -/
def expandOne (rng : ℕ → ℚ) (thr : ℚ) (t : ScaleRec) (k : ℕ) :
    ScaleRec × List ScaleRec × ℕ :=
  if thr < t.tph then
    let nNew : ℕ := (⌊t.tph / thr⌋ - 1).toNat
    let s := synthLoop rng thr t 0 k nNew
    let cum : ℚ := thr * (nNew + 1)
    if cum < t.tph then
      let r := mkSynth rng t s.2 (nNew + 1) (t.tph - cum)
      (recomputeBa { t with tph := thr, eid := nNew + 2 }, s.1 ++ [r.1], r.2)
    else
      (recomputeBa { t with tph := thr, eid := nNew + 1 }, s.1, s.2)
  else (t, [], k)

/-- `STAND::expand_tree_list` (stand.cpp:400-460): process the original
records in order (the loop bound is the list size captured before any
append), overwriting each heavy record in place and appending its
synthetic copies at the end of the vector.  The C++ random generator is
modelled by the stream `rng` of successive draws. -/
def expand_tree_list (rng : ℕ → ℚ) (thr : ℚ) (l : List ScaleRec) : List ScaleRec :=
  let st := l.foldl
    (fun (st : List ScaleRec × List ScaleRec × ℕ) t =>
      let r := expandOne rng thr t st.2.2
      (st.1 ++ [r.1], st.2.1 ++ r.2.1, r.2.2))
    ([], [], 0)
  st.1 ++ st.2.1

/-- The group-membership test of the collapse scan (stand.cpp:481-484):
same plot and tree id, expanded (`expand_tree_id > 0` on the unsigned
value, i.e. nonzero), and not the accumulator record itself. -/
def sameGroup (a x : ScaleRec) : Bool :=
  x.plot = a.plot && x.tid = a.tid && x.eid ≠ 0 && x.eid ≠ a.eid

/-- Fold one matching record into the collapse accumulator
(stand.cpp:486-490): add its density and its density-weighted dimensions. -/
def addInto (a x : ScaleRec) : ScaleRec :=
  { a with
      tph := a.tph + x.tph
      dbh := a.dbh + x.dbh * x.tph
      ht := a.ht + x.ht * x.tph
      hcb := a.hcb + x.hcb * x.tph
      cr := a.cr + x.cr * x.tph }

/-- Mark a consumed group member (stand.cpp:491-492): expand id `-1`
(stored into the unsigned field), density zero. -/
def consume (x : ScaleRec) : ScaleRec := { x with eid := -1, tph := 0 }

/-- The accumulating half of the inner collapse scan (stand.cpp:478-494).
The match test reads only the accumulator's `plot`/`tid`/`eid`, none of
which the accumulation updates, so the scan is a fold over the matching
members. -/
def scanAcc (a : ScaleRec) (l : List ScaleRec) : ScaleRec :=
  (l.filter (sameGroup a)).foldl addInto a

/-- The marking half of the inner collapse scan: every matching member is
consumed in place, everything else is untouched. -/
def scanMark (a : ScaleRec) (l : List ScaleRec) : List ScaleRec :=
  l.map (fun x => if sameGroup a x then consume x else x)

/-- Scale a record's dimensions by its density — the accumulator seed of
the collapse (stand.cpp:472-475). -/
def weigh (t : ScaleRec) : ScaleRec :=
  { t with
      dbh := t.dbh * t.tph
      ht := t.ht * t.tph
      hcb := t.hcb * t.tph
      cr := t.cr * t.tph }

/-- Divide the accumulated sums back by the accumulated density, reset the
expand id, and recompute attributes (stand.cpp:496-508); skipped when the
accumulated density is zero. -/
def unweigh (a : ScaleRec) : ScaleRec :=
  if 0 < a.tph then
    recomputeBa { a with
        dbh := a.dbh / a.tph
        ht := a.ht / a.tph
        hcb := a.hcb / a.tph
        cr := a.cr / a.tph
        eid := 0 }
  else a

/-- The outer sweep of `STAND::unexpand_tree_list` (stand.cpp:466-510):
walk the list; at every record with nonzero expand id, seed the
accumulator, fold in and consume every later group member, and average. -/
def unexpandAux : List ScaleRec → List ScaleRec
  | [] => []
  | t :: ts =>
    if t.eid ≠ 0 then
      unweigh (scanAcc (weigh t) ts) :: unexpandAux (scanMark (weigh t) ts)
    else
      t :: unexpandAux ts
termination_by l => l.length
decreasing_by
  all_goals simp [scanMark]

/-- `STAND::unexpand_tree_list` (stand.cpp:463-516): the collapse sweep
followed by `std::erase_if` of the zero-density records. -/
def unexpand_tree_list (l : List ScaleRec) : List ScaleRec :=
  (unexpandAux l).filter (fun t => t.tph ≠ 0)

/-- The loop body of the `expand_tree_list` fold, named so the fold can be
reasoned about; definitionally the lambda inside `expand_tree_list`. -/
def expandStep (rng : ℕ → ℚ) (thr : ℚ) (st : List ScaleRec × List ScaleRec × ℕ)
    (t : ScaleRec) : List ScaleRec × List ScaleRec × ℕ :=
  let r := expandOne rng thr t st.2.2
  (st.1 ++ [r.1], st.2.1 ++ r.2.1, r.2.2)

/-- Recursive restatement of the `expand_tree_list` fold: the list of
processed originals and the list of appended synthetic records, threading
the random-stream position.  Proven equal to the fold in
`expand_tree_list_eq`. -/
def expandRec (rng : ℕ → ℚ) (thr : ℚ) : List ScaleRec → ℕ → List ScaleRec × List ScaleRec
  | [], _ => ([], [])
  | t :: ts, k =>
    let r := expandOne rng thr t k
    let rest := expandRec rng thr ts r.2.2
    (r.1 :: rest.1, r.2.1 ++ rest.2)

/-- What the expand/collapse round trip guarantees for one original record
`t` collapsed back to `u` when every random draw lies within `e`: plot and
tree identity, density, crown ratio and crown base are reproduced exactly,
while diameter and height are reproduced only to within the jitter bound
`e` (the expansion perturbs every synthetic copy's diameter and positive
height by a fresh random draw). -/
def roundTripRel (e : ℚ) (t u : ScaleRec) : Prop :=
  u.plot = t.plot ∧ u.tid = t.tid ∧ u.eid = 0 ∧ u.tph = t.tph ∧
  u.cr = t.cr ∧ u.hcb = t.hcb ∧ |u.dbh - t.dbh| ≤ e ∧ |u.ht - t.ht| ≤ e

/-- Concrete record for the round-trip analysis: 80 stems per hectare,
1.6 times the expansion threshold of 50, so it splits into the rewritten
original (density 50) plus one jittered remainder record (density 30). -/
def c5rec : ScaleRec :=
  recomputeBa { plot := 1, tid := 1, eid := 0, dbh := 10, ht := 15, hcb := 5, cr := 2/3, tph := 80, ba := 0 }

/-- Constant random stream drawing 0.004 on every call — a value the C++
`uniform_real_distribution(-0.005, 0.005)` can produce. -/
def c5rng : ℕ → ℚ := fun _ => 1/250

/-- The rewritten original produced by expanding `c5rec`: density clamped
to the threshold, expand id 2, attributes recomputed. -/
def c5O : ScaleRec :=
  recomputeBa { plot := 1, tid := 1, eid := 2, dbh := 10, ht := 15, hcb := 5, cr := 2/3, tph := 50, ba := 0 }

/-- The remainder record produced by expanding `c5rec`: the residual
density 30, diameter and height jittered by the draw 0.004, expand id 1. -/
def c5R : ScaleRec :=
  recomputeBa { plot := 1, tid := 1, eid := 1, dbh := 10 + 1/250, ht := 15 + 1/250, hcb := 5, cr := 2/3, tph := 30, ba := 0 }

/-- The collapsed record obtained by unexpanding the expansion of `c5rec`:
density, crown ratio and crown base return exactly, but the weighted
average leaves diameter and height shifted by 30/80 of the jitter. -/
def c5U : ScaleRec :=
  recomputeBa { plot := 1, tid := 1, eid := 0, dbh := 10 + 3/2000, ht := 15 + 3/2000, hcb := 5, cr := 2/3, tph := 80, ba := 0 }

section RealModels

/- The empirical equations below use `exp`, `log`, `sqrt` and real powers;
their exact-real embedding is necessarily noncomputable.  Every claim
about them is settled symbolically. -/

noncomputable section

/-- A concrete growth record over ℚ: positive height and crown base after
the deltas, a positive density decrement. -/
@[reducible]
def gQ : GrowRec ℚ :=
  { dbh := 10, ht := 8, hcb := 4, cr := 1 / 2, tph := 40, ba := 10 * 10 * baK * 40,
    ddbh := 1 / 2, dht := 1 / 2, dhcb := 1 / 4, dtph := 1, psurv := 1 }

/-- A concrete two-record stand of total density 120 trees/ha. -/
def l6 : List TreeRec :=
  [{ dbh := 10, ht := 12, tph := 60, ba := 1, sw := true },
   { dbh := 8, ht := 9, tph := 60, ba := 1, sw := false }]

/-- A concrete four-record stand with a diameter tie at 10 cm between two
softwoods. -/
def lBal : List TreeRec :=
  [{ dbh := 12, ht := 0, tph := 0, ba := 2, sw := true },
   { dbh := 10, ht := 0, tph := 0, ba := 3, sw := true },
   { dbh := 10, ht := 0, tph := 0, ba := 4, sw := true },
   { dbh := 8, ht := 0, tph := 0, ba := 1, sw := false }]

/-- The BAL traversal output on `lBal`. -/
def outBal : List TreeRec :=
  [{ dbh := 12, ht := 0, tph := 0, ba := 2, sw := true, bal := 0, bal_sw := 0, bal_hw := 0 },
   { dbh := 10, ht := 0, tph := 0, ba := 3, sw := true, bal := 2, bal_sw := 2, bal_hw := 0 },
   { dbh := 10, ht := 0, tph := 0, ba := 4, sw := true, bal := 2, bal_sw := 2, bal_hw := 0 },
   { dbh := 8, ht := 0, tph := 0, ba := 1, sw := false, bal := 9, bal_sw := 9, bal_hw := 0 }]

/-- The stand covariates read by `STAND::compute_sdi_rd`
(stand.cpp:359-397).  (`min_dbh_10` is a declared stand field the function
reads; nothing in the source ever assigns it, so it enters here as an
ordinary input.) -/
structure SdiIn where
  average_sg : ℝ
  average_sg_10 : ℝ
  min_dbh : ℝ
  max_dbh : ℝ
  min_dbh_10 : ℝ
  ba : ℝ
  ba_hw : ℝ
  sdi : ℝ
  sdi_10 : ℝ
  elevation : ℝ
  csi : ℝ
  n_species : ℕ

/-- `dbh_range` (stand.cpp:361). -/
def dbhRange (s : SdiIn) : ℝ :=
  if s.min_dbh < s.max_dbh then s.max_dbh - s.min_dbh else 0

/-- `dbh_10_range` (stand.cpp:362). -/
def dbh10Range (s : SdiIn) : ℝ :=
  if s.min_dbh_10 < s.max_dbh then s.max_dbh - s.min_dbh_10 else 0

/-- The fallback density ceiling `SDImax2` (stand.cpp:377), computed from
`meanSG = max(average_sg, 0.80)` (stand.cpp:369). -/
def SDImax2 (s : SdiIn) : ℝ := 1347.445 - 1003.870 * max s.average_sg 0.80

/-- The primary density-ceiling regression for trees with dbh ≥ 10 cm
(stand.cpp:374-375), using `meanSG_10 = max(average_sg_10, 0.80)`. -/
def SDImax10 (s : SdiIn) : ℝ :=
  475.2079 - 1.5908 * (s.ba_hw / s.ba) - 236.9051 * Real.log (max s.average_sg_10 0.80) +
    50.3299 * Real.sqrt (dbh10Range s) + 13.5202 * (s.n_species : ℝ) +
    0.0685 * s.elevation - 2.8537 * Real.sqrt s.elevation + 222.7836 * (1 / s.csi)

/-- The primary density-ceiling regression over all trees
(stand.cpp:384-385). -/
def SDImaxAll (s : SdiIn) : ℝ :=
  475.2079 - 1.5908 * (s.ba_hw / s.ba) - 236.9051 * Real.log (max s.average_sg 0.80) +
    50.3299 * Real.sqrt (dbhRange s) + 13.5202 * (s.n_species : ℝ) +
    0.0685 * s.elevation - 2.8537 * Real.sqrt s.elevation + 222.7836 * (1 / s.csi)

/-- The relative density for trees with dbh ≥ 10 cm: stand.cpp:379-380,
`SDImax = SDImax > 0.0 ? SDImax2 : SDImax; rd_10 = sdi_10 / SDImax;`. -/
def rd_10 (s : SdiIn) : ℝ :=
  s.sdi_10 / (if 0 < SDImax10 s then SDImax2 s else SDImax10 s)

/-- The all-trees relative density: stand.cpp:386-388,
`SDImax_all = SDImax_all > 0.0 ? SDImax_all : SDImax2; rd = sdi / SDImax_all;`. -/
def rd (s : SdiIn) : ℝ :=
  s.sdi / (if 0 < SDImaxAll s then SDImaxAll s else SDImax2 s)

/-- The tree-level state read by `TREE::survival_prob` and its modifiers
(tree.cpp:455-702): measurements, competition fields, species and form
codes, density, and the tree's resolved mortality coefficients
`mort_beta[0..2]` (the only entries of the 5-wide parameter row the
survival equation reads; the rows themselves live in the external species
parameter tables). -/
structure MTree where
  spp : ℤ
  form : ℤ
  dbh : ℝ
  ht : ℝ
  cr : ℝ
  bal : ℝ
  bal_sw : ℝ
  bal_hw : ℝ
  tph : ℝ
  m0 : ℝ
  m1 : ℝ
  m2 : ℝ

/-- The stand-level arguments threaded into `TREE::survival_prob` by
`STAND::compute_survival_prob` (stand.cpp:806-816) and into the stand
mortality modifiers by `STAND::survival` (stand.cpp:828-852). -/
structure SurvEnv where
  Region : String
  csi : ℝ
  ba : ℝ
  qmd : ℝ
  percent_ba_removed : ℝ
  ba_pre_thin : ℝ
  qmdRat : ℝ
  thin_year : ℤ
  year : ℤ
  average_height_hw : ℝ
  average_height_sw : ℝ
  CDEF : ℝ
  use_sbw : Bool
  use_hw : Bool
  use_thin : Bool

/-- The unmodified complementary log-log survival probability
(tree.cpp:461-462). -/
def baseSurvival (t : MTree) : ℝ :=
  1 - Real.exp (-Real.exp (-t.m0 + t.m1 * (t.dbh ^ t.m2 / (t.bal + 1))))

/-- The thinning-validity guard shared by the thinning modifiers
(tree.cpp:669, stand.cpp:777): a non-negative thinning year in the past
with positive removal, qmd ratio and pre-thin basal area. -/
def thinValid (e : SurvEnv) : Prop :=
  0 ≤ e.thin_year ∧ e.thin_year ≤ e.year ∧ 0 < e.percent_ba_removed ∧
    0 < e.qmdRat ∧ 0 < e.ba_pre_thin

instance thinValid_decidable (e : SurvEnv) : Decidable (thinValid e) := by
  unfold thinValid
  infer_instance

/-- Years since thinning, as the real value the C++ `int` is promoted to. -/
def tst (e : SurvEnv) : ℝ := ((e.year - e.thin_year : ℤ) : ℝ)

/-- `TREE::surv_sbw` (tree.cpp:495-580): spruce-budworm survival modifier
for fir/spruce with supplied defoliation, as a before/after ratio of
complementary log-log mortalities, clamped to at most 1. -/
def surv_sbw (e : SurvEnv) (t : MTree) : ℝ :=
  let m :=
    if (t.spp = 12 ∨ t.spp = 94 ∨ t.spp = 95 ∨ t.spp = 97) ∧ 0 ≤ e.CDEF then
      let c :=
        if e.Region = "ME" then
          if t.spp = 12 then ((-6.5208 : ℝ), (-0.4866 : ℝ), (-0.0355 : ℝ), (0.0316 : ℝ), (1.5087 : ℝ), (-0.0175 : ℝ), (0.0274 : ℝ), (0.0040 : ℝ))
          else if t.spp = 97 ∨ t.spp = 95 then (-6.5208, -0.4866, -0.1231, 0.0316, 1.5087, -0.0175, 0.0274, 0.0056)
          else if t.spp = 94 then (-6.5208, -0.4866, -0.1755, 0.0316, 1.5087, -0.0175, 0.0274, 0.0207)
          else (-6.5208, -0.4866, 0, 0.0316, 1.5087, -0.0175, 0.0274, 0)
        else if e.Region = "NB" then
          if t.spp = 12 then (-6.8310, 0, -0.2285, 0.2025, 2.1703, 0, 0, 0.0029)
          else if t.spp = 97 ∨ t.spp = 95 then (-6.8310, 0, -0.2285, 0.2025, 2.0809, 0, 0, 0.0101)
          else if t.spp = 94 then (-6.8310, 0, -0.2285, 0.2025, 1.5802, 0, 0, 0.0021)
          else (-6.8310, 0, 0, 0.2025, 0, 0, 0, 0)
        else (0, 0, 0, 0, 0, 0, 0, 0)
      let x := c.1 + c.2.1 * t.cr + c.2.2.1 * t.dbh + c.2.2.2.1 * e.average_height_sw +
        c.2.2.2.2.1 * (t.ht / e.average_height_sw) + c.2.2.2.2.2.1 * t.bal_sw +
        c.2.2.2.2.2.2.1 * t.bal_hw
      let mort_a := 1 - Real.exp (-Real.exp x)
      let mort_b := 1 - Real.exp (-Real.exp (x + c.2.2.2.2.2.2.2 * e.CDEF))
      if 0 < mort_a then (1 - mort_b) / (1 - mort_a) else 1
    else 1
  if m ≤ 1 then m else 1

/-- `TREE::surv_hw` (tree.cpp:584-656): hardwood form/risk survival
modifier as a before/after logistic-mortality ratio, clamped to at most 1.
(The species random effects `b4`,`b6` default to `3.3082`,`0` — the values
paper birch keeps — and the form effect `b5` defaults to `0` for form
codes other than 1, 2, 5, 8.) -/
def surv_hw (ba : ℝ) (t : MTree) : ℝ :=
  let m :=
    if (1 ≤ t.form ∧ t.form ≤ 8) ∧
        (t.spp = 833 ∨ t.spp = 371 ∨ t.spp = 316 ∨ t.spp = 375 ∨ t.spp = 746) then
      let b5 : ℝ :=
        if t.form = 1 then 3.3082 else if t.form = 2 then 2.2518
        else if t.form = 5 then 0 else if t.form = 8 then 0 else 0
      let re : ℝ × ℝ :=
        if t.spp = 746 then (-2.7907, 0.0791)
        else if t.spp = 316 then (-3.9809, 0.8343)
        else if t.spp = 833 then (-0.7937, 0.8944)
        else if t.spp = 371 then (5.2531, 0.1528)
        else (3.3082, 0)
      let x := 15.1991 + (-0.1509) * t.dbh + (-0.1232) * t.bal +
        (-1.4053) * Real.sqrt ba + re.1 + re.2 * t.dbh
      let mort_a := Real.exp x / (1 + Real.exp x)
      let mort_b := Real.exp (x + b5) / (1 + Real.exp (x + b5))
      if mort_a ≠ 0 then mort_b / mort_a else 1
    else 1
  if m ≤ 1 then m else 1

/-- `TREE::surv_thin` (tree.cpp:660-702): thinning mortality-hazard
modifier for balsam fir and red spruce; the function returns the
RECIPROCAL of the hazard multiplier, clamped to at most 1 ("constrain
modifier to (0,1)" per its own comment). -/
def surv_thin (e : SurvEnv) (t : MTree) : ℝ :=
  let m :=
    if thinValid e then
      if t.spp = 12 then
        1 + Real.exp (1.7414 + 7.0805 /
            ((100 * e.percent_ba_removed + e.ba_pre_thin) * e.qmdRat + 0.01)) *
          (0.6677 : ℝ) ^ tst e * tst e ^ (0.8474 : ℝ)
      else if t.spp = 97 then
        1 + Real.exp (10.5057 + (-650.8260) /
            (100 * e.percent_ba_removed + e.ba_pre_thin + 0.01)) *
          (0.6948 : ℝ) ^ tst e * tst e ^ (0.6429 : ℝ)
      else 1
    else 1
  let x := 1 / m
  if x ≤ 1 then x else 1

/-- `TREE::survival_prob` (tree.cpp:455-487): the complementary log-log
base survival multiplied by the optional spruce-budworm, thinning and
hardwood modifiers — the thinning one entering as `1.0/thin_modifier`
(tree.cpp:477). -/
def survival_prob (e : SurvEnv) (t : MTree) : ℝ :=
  let sbwM := if e.use_sbw then surv_sbw e t else 1
  let hwM := if e.use_hw then surv_hw e.ba t else 1
  let thinM := if e.use_thin then surv_thin e t else 1
  baseSurvival t * (sbwM * (1 / thinM) * hwM)

/-- `STAND::mort_sbw` (stand.cpp:726-769): stand-level spruce-budworm
mortality multiplier (the region coefficient fallback repeats the Maine
values). -/
def mort_sbw (Region : String) (topht ba bf_ba CDEF : ℝ) : ℝ :=
  let c : ℝ × ℝ × ℝ × ℝ :=
    if Region = "NB" then (-3.0893, 0.0071, -0.0037, 0)
    else (-2.6380, 0.0114, -0.0076, 0.0074)
  let VOL := topht / 2 * ba
  let aa := 1 / (1 + Real.exp (-c.1)) * (1 / (1 + Real.exp (-(c.2.2.1 * VOL))))
  let bb := 1 / (1 + Real.exp (-c.1)) *
    (1 / (1 + Real.exp (-(c.2.1 * CDEF * bf_ba + c.2.2.1 * VOL + c.2.2.2 * CDEF))))
  if CDEF < 0 then 1 else if 0 < aa then bb / aa else 1

/-- `STAND::mort_thin` (stand.cpp:773-803): stand-level thinning mortality
multiplier. -/
def mort_thin (e : SurvEnv) : ℝ :=
  if thinValid e then
    1 + Real.exp (8.3385 + (-601.3096) /
        (100 * e.percent_ba_removed + e.ba_pre_thin + 0.01)) *
      (0.5507 : ℝ) ^ tst e * tst e ^ (1.5798 : ℝ)
  else 1

/-- The per-tree density decrement computed by `STAND::survival`
(stand.cpp:828-852): `tph * (1 - p_survival) * sbw_modifier *
thin_modifier`, with the stand modifiers active only under their flags. -/
def standDtph (e : SurvEnv) (topht bf_ba : ℝ) (t : MTree) : ℝ :=
  let sbwM := if e.use_sbw then mort_sbw e.Region topht e.ba bf_ba e.CDEF else 1
  let thinM := if e.use_thin then mort_thin e else 1
  t.tph * (1 - survival_prob e t) * sbwM * thinM

/-- `INGROWTH_MODEL_TYPE` (stand.hpp:16-19). -/
inductive IngModel where
  | gnls : IngModel
  | nlme : IngModel
deriving DecidableEq, Repr

/-- The stand state read by `STAND::ingrowth` (stand.cpp:661-684). -/
structure IngrowthIn where
  ba : ℝ
  ba_hw : ℝ
  tph : ℝ
  csi : ℝ
  MinDBH : ℝ
  qmd : ℝ
  cut_point : ℝ

/-- Occurrence-equation coefficients `gnls_a`/`nlme_a` (stand.cpp:664-666). -/
def ingA (m : IngModel) : Fin 7 → ℝ :=
  match m with
  | IngModel.gnls => ![-0.2116, -0.0255, -0.1396, -0.0054, 0.0433, 0.0409, 0.0]
  | IngModel.nlme => ![-0.08217, 0.1113, -1.2405, -0.2319, 0.03673, -0.7745, -0.1301]

/-- Rate-equation coefficients `gnls_b`/`nlme_b` (stand.cpp:665-667). -/
def ingB (m : IngModel) : Fin 7 → ℝ :=
  match m with
  | IngModel.gnls => ![3.8982, -0.0257, -0.3668, 0.0002, 0.0216, -0.0514, 0.0]
  | IngModel.nlme => ![2.8466, -0.03114, -0.2891, 0.003350, 0.2248, -0.08223, -0.03548]

/-- `link1` (stand.cpp:672). -/
def ingLink1 (m : IngModel) (s : IngrowthIn) : ℝ :=
  ingA m 0 + ingA m 1 * s.ba + ingA m 2 * (s.ba_hw / s.ba) + ingA m 3 * (s.tph / 1000) +
    ingA m 4 * s.csi + ingA m 5 * s.MinDBH + ingA m 6 * s.qmd

/-- The probability-of-occurrence term `PI` (stand.cpp:674). -/
def ingPI (m : IngModel) (s : IngrowthIn) : ℝ :=
  1 / (1 + Real.exp (-ingLink1 m s))

/-- The log-linear rate link `eta` (stand.cpp:675). -/
def ingEta (m : IngModel) (s : IngrowthIn) : ℝ :=
  ingB m 0 + ingB m 1 * s.ba + ingB m 2 * (s.ba_hw / s.ba) + ingB m 3 * (s.tph / 1000) +
    ingB m 4 * s.csi + ingB m 5 * s.MinDBH + ingB m 6 * s.qmd

/-- `STAND::ingrowth` (stand.cpp:661-684): recruits per hectare, with the
occurrence probability either scaling the rate (cut point 0) or gating it
(nonzero cut point). -/
def ingrowth (m : IngModel) (s : IngrowthIn) : ℝ :=
  let IPH := Real.exp (ingEta m s)
  if s.cut_point = 0 then IPH * ingPI m s
  else if ingPI m s ≥ s.cut_point then IPH else 0

/-- A tree as read by the ingrowth-allocation machinery
(`STAND::build_ba_spp_map`, `STAND::ingrowth_composition`,
stand.cpp:539-656): plot, species code, the resolved softwood flag, basal
area. -/
structure IngTree where
  plot : ℕ
  spp : ℤ
  sw : Bool
  ba : ℝ

/-- The ingrowth species-group cross walk (stand.cpp:519-535). -/
def cross_walk (c : ℤ) : Option ℤ :=
  if c = 531 then some 531 else if c = 746 then some 746
  else if c = 318 then some 318 else if c = 241 then some 241
  else if c = 379 then some 379 else if c = 375 then some 379
  else if c = 371 then some 379 else if c = 12 then some 12
  else if c = 316 then some 316 else if c = 97 then some 97
  else if c = 95 then some 97 else if c = 94 then some 97
  else if c = 129 then some 129 else if c = 9990 then some 9990
  else if c = 9991 then some 9991 else none

/-- The species key under which `build_ba_spp_map` (stand.cpp:539-556)
accumulates a tree's basal area: its own code when the cross walk
enumerates it, else the other-softwood/other-hardwood catch-all. -/
def sppKey (t : IngTree) : ℤ :=
  if (cross_walk t.spp).isSome then t.spp else if t.sw then 9991 else 9990

/-- The species-group code of a species key (`cross_walk.at`); total on
every key `sppKey` can produce. -/
def grpOf (c : ℤ) : ℤ := (cross_walk c).getD 0

/-- The species-group key under which a tree's basal area is accumulated. -/
def grpKey (t : IngTree) : ℤ := grpOf (sppKey t)

/-- The `ba_spp` map entry for species key `s` (stand.cpp:546/551). -/
def ba_spp (l : List IngTree) (s : ℤ) : ℝ :=
  ((l.filter (fun t => sppKey t = s)).map (·.ba)).sum

/-- The `ba_grp_spp` map entry for group `g` (stand.cpp:547/552). -/
def ba_grp (l : List IngTree) (g : ℤ) : ℝ :=
  ((l.filter (fun t => grpKey t = g)).map (·.ba)).sum

/-- The `plot_species_ba` nested-map entry (stand.cpp:548/553). -/
def plot_spp (l : List IngTree) (p : ℕ) (s : ℤ) : ℝ :=
  ((l.filter (fun t => t.plot = p ∧ sppKey t = s)).map (·.ba)).sum

/-- The key set of `ba_spp` (iteration order of the C++ unordered map is
unspecified; every quantity summed over it is permutation-invariant). -/
def sppKeys (l : List IngTree) : List ℤ := (l.map sppKey).dedup

/-- The key set of `ba_grp_spp`. -/
def grpKeys (l : List IngTree) : List ℤ := (l.map grpKey).dedup

/-- The key set of `plot_species_ba`. -/
def plotKeys (l : List IngTree) : List ℕ := (l.map (·.plot)).dedup

/-- The stand total basal area the allocation divides by (the `ba` field,
the sum of all tree records' basal area). -/
def standBa (l : List IngTree) : ℝ := (l.map (·.ba)).sum

/-- The group allocation regressions of `STAND::ingrowth_composition`
(stand.cpp:561-616): the linear predictor for each species group (a group
key not matched by any branch — white cedar 241 — keeps the initial 0). -/
def grpLinear (g : ℤ) (ba pba csi minDbh : ℝ) : ℝ :=
  if g = 379 ∨ g = 375 ∨ g = 371 then
    -2.5645 + 0.0020 * ba + 2.6624 * pba + (-0.0010) * csi + (-0.0127) * minDbh
  else if g = 12 then
    -3.0291 + 0.0027 * ba + 2.7779 * pba + 0.0211 * csi + 0.0221 * minDbh
  else if g = 316 then
    -0.6566 + 0.0123 * ba + 1.7669 * pba + (-0.0421) * csi + (-0.0283) * minDbh
  else if g = 97 ∨ g = 95 ∨ g = 94 then
    -1.2500 + (-0.0132) * ba + 2.0470 * pba + (-0.0514) * csi + 0.0351 * minDbh
  else if g = 129 then
    -5.1074 + (-0.0117) * ba + 3.8817 * pba + 0.0501 * csi + 0.0726 * minDbh
  else if g = 9990 ∨ g = 746 ∨ g = 531 ∨ g = 318 then
    -2.9832 + (-0.0020) * ba + 2.4837 * pba + 0.0673 * csi + (-0.0167) * minDbh
  else if g = 9991 then
    -4.7182 + 0.0070 * ba + 3.2269 * pba + 0.1000 * csi + 0.0188 * minDbh
  else 0

/-- The logistic transform applied to every group predictor
(stand.cpp:618). -/
def logistic (x : ℝ) : ℝ := 1 / (1 + Real.exp (-x))

/-- The (unnormalized) allocation percent of group `g` (stand.cpp:578-620). -/
def grpPercent (l : List IngTree) (csi minDbh : ℝ) (g : ℤ) : ℝ :=
  logistic (grpLinear g (standBa l) (ba_grp l g / standBa l) csi minDbh)

/-- `total_percent` (stand.cpp:573-622): sum of the group percents over
the group map. -/
def totalPercent (l : List IngTree) (csi minDbh : ℝ) : ℝ :=
  ((grpKeys l).map (grpPercent l csi minDbh)).sum

/-- The normalized, IPH-scaled group allocation (stand.cpp:626-633). -/
def grpAlloc (l : List IngTree) (csi minDbh IPH : ℝ) (g : ℤ) : ℝ :=
  grpPercent l csi minDbh g / totalPercent l csi minDbh * IPH

/-- The per-species ingrowth `spp_ingrowth` (stand.cpp:639): the species'
group allocation scaled by the species' share of the group basal area. -/
def sppAlloc (l : List IngTree) (csi minDbh IPH : ℝ) (s : ℤ) : ℝ :=
  grpAlloc l csi minDbh IPH (grpOf s) * ba_spp l s / ba_grp l (grpOf s)

/-- The new tree records `STAND::ingrowth_composition` emits
(stand.cpp:636-655): one `(plot, species, density)` per plot-species
combination with positive plot share.  (Each record is constructed with
diameter `MinDBH`, height 0 and crown ratio 0, which the claim under study
does not read.) -/
def newRecords (l : List IngTree) (csi minDbh IPH : ℝ) : List (ℕ × ℤ × ℝ) :=
  (sppKeys l).flatMap (fun s =>
    (plotKeys l).filterMap (fun p =>
      let share := plot_spp l p s / ba_spp l s
      if 0 < share then some (p, s, sppAlloc l csi minDbh IPH s * share) else none))

/-- Total represented density of the emitted ingrowth records. -/
def newTphTotal (l : List IngTree) (csi minDbh IPH : ℝ) : ℝ :=
  ((newRecords l csi minDbh IPH).map (fun r => r.2.2)).sum

/-- A concrete stand state for `compute_sdi_rd`: one species of specific
gravity 0.8, a single diameter class at 10 cm, sea level, unit site index
and unit basal area. -/
def sdiCx : SdiIn :=
  { average_sg := 0.8, average_sg_10 := 0.8, min_dbh := 10, max_dbh := 10,
    min_dbh_10 := 10, ba := 1, ba_hw := 0, sdi := 1, sdi_10 := 1,
    elevation := 0, csi := 1, n_species := 1 }

/-- A concrete stand environment: Maine, thinned in year 0 and simulated in
year 1 (one year since thinning), 100 % removal fraction recorded, unit
pre-thin basal area and qmd ratio, defoliation not supplied, only the
thinning modifier enabled. -/
def eThin : SurvEnv :=
  { Region := "ME", csi := 1, ba := 1, qmd := 1, percent_ba_removed := 1,
    ba_pre_thin := 1, qmdRat := 1, thin_year := 0, year := 1,
    average_height_hw := 1, average_height_sw := 1, CDEF := -1,
    use_sbw := false, use_hw := false, use_thin := true }

/-- The same environment with every modifier flag off. -/
def eOff : SurvEnv :=
  { eThin with use_thin := false }

/-- A concrete balsam-fir tree record (40 stems/ha, 10 cm, 8 m) with
mortality coefficients `(0, 0, 1)`. -/
def tFir : MTree :=
  { spp := 12, form := 1, dbh := 10, ht := 8, cr := 0.5, bal := 0,
    bal_sw := 0, bal_hw := 0, tph := 40, m0 := 0, m1 := 0, m2 := 1 }

/-- The growth record of `tFir` at the apply step of the year in which
`STAND::survival` ran with the thinning modifier enabled: zero growth
deltas, density decrement as computed by the survival pass. -/
def gFir : GrowRec ℝ :=
  { dbh := 10, ht := 8, hcb := 4, cr := 0.5, tph := 40,
    ba := 10 * 10 * ((7854 : ℝ) / 100000000) * 40,
    ddbh := 0, dht := 0, dhcb := 0,
    dtph := standDtph eThin 8 1 tFir, psurv := survival_prob eThin tFir }

/-- The balsam-fir thinning hazard multiplier at `eThin` one year after
thinning: `1 + exp(y0 + y1/((100·pbar + bpt)·qr + 0.01)) · y2¹ · 1^y3`. -/
def rawThin : ℝ := 1 + Real.exp (1.7414 + 7.0805 / 101.01) * 0.6677

/-- A concrete two-tree stand for the ingrowth allocation: a softwood
balsam fir with basal area 1 and a hardwood red maple record with basal
area 0 (e.g. a zero-diameter record); the stand total is positive. -/
def l10 : List IngTree :=
  [{ plot := 1, spp := 12, sw := true, ba := 1 },
   { plot := 1, spp := 316, sw := false, ba := 0 }]

/-- A single-record stand with positive basal area for the allocation
witness. -/
def lW : List IngTree := [{ plot := 1, spp := 12, sw := true, ba := 1 }]

/-- A concrete ingrowth input with the "always scale" cut point 0. -/
def ingCx : IngrowthIn :=
  { ba := 30, ba_hw := 10, tph := 1500, csi := 16, MinDBH := 8, qmd := 12,
    cut_point := 0 }

/-- The same ingrowth input with a genuine threshold cut point. -/
def ingCxGate : IngrowthIn :=
  { ingCx with cut_point := 1 / 2 }

end

end RealModels

/-!  Theorems.  Each claim of the specification is settled by exactly one
theorem below; shared helper lemmas precede them. -/

/-- Claim C8: `STAND` construction fails with a configuration error exactly
when the region code is neither "ME" nor "NB" or the climate site index is
not strictly positive; on failure the driver ingests no trees (the
exception skips the tree loop), and valid arguments construct
successfully. -/
theorem standCtor_spec (r : String) (c : ℚ) :
    ((∃ e, standCtor r c = Except.error e) ↔ ((r ≠ "ME" ∧ r ≠ "NB") ∨ c ≤ 0)) ∧
    (∀ (e : ConfigErr) (ts : List ℚ),
      standCtor r c = Except.error e → growDriver r c ts = Except.error e) ∧
    ((r = "ME" ∨ r = "NB") → 0 < c → standCtor r c = Except.ok ()) := by
  refine ⟨⟨fun h => ?_, fun h => ?_⟩, fun e ts he => ?_, fun hr hc => ?_⟩
  · by_cases h1 : r ≠ "ME" ∧ r ≠ "NB"
    · exact Or.inl h1
    · by_cases h2 : c ≤ 0
      · exact Or.inr h2
      · obtain ⟨e, he⟩ := h
        rw [standCtor, if_neg h1, if_neg h2] at he
        exact absurd he (by simp)
  · rcases h with h | h
    · exact ⟨ConfigErr.invalidRegion, by rw [standCtor, if_pos h]⟩
    · by_cases h1 : r ≠ "ME" ∧ r ≠ "NB"
      · exact ⟨ConfigErr.invalidRegion, by rw [standCtor, if_pos h1]⟩
      · exact ⟨ConfigErr.invalidCSI, by rw [standCtor, if_neg h1, if_pos h]⟩
  · simp only [growDriver, he]
    rfl
  · have h1 : ¬(r ≠ "ME" ∧ r ≠ "NB") := by
      rcases hr with h | h <;> simp [h]
    rw [standCtor, if_neg h1, if_neg (not_le.mpr hc)]

/-- Claim C8 witness: the invalid region "XX" fails construction and the
driver ingests nothing, while ("ME", 16) constructs. -/
theorem standCtor_spec_witness :
    growDriver "XX" (16 : ℚ) [(1 : ℚ)] = Except.error ConfigErr.invalidRegion ∧
      standCtor "ME" (16 : ℚ) = Except.ok () :=
  ⟨(standCtor_spec "XX" 16).2.1 ConfigErr.invalidRegion [(1 : ℚ)] rfl,
   (standCtor_spec "ME" 16).2.2 (Or.inl rfl) (by decide)⟩

/-- Claim C9: with cut point 0 the ingrowth estimate is the rate term
`exp(eta)` scaled by the occurrence probability `PI`; with a nonzero cut
point it is `exp(eta)` unscaled when `PI` reaches the cut point and exactly
0 otherwise. -/
theorem ingrowth_cut_point_spec (m : IngModel) (s : IngrowthIn) :
    (s.cut_point = 0 → ingrowth m s = Real.exp (ingEta m s) * ingPI m s) ∧
    (s.cut_point ≠ 0 → s.cut_point ≤ ingPI m s → ingrowth m s = Real.exp (ingEta m s)) ∧
    (s.cut_point ≠ 0 → ingPI m s < s.cut_point → ingrowth m s = 0) := by
  refine ⟨fun h => ?_, fun h h2 => ?_, fun h h2 => ?_⟩
  · rw [ingrowth, if_pos h]
  · rw [ingrowth, if_neg h, if_pos h2]
  · rw [ingrowth, if_neg h, if_neg (not_le.mpr h2)]

/-- Claim C9 witness: at a concrete stand state with the sentinel cut point
the estimate is the scaled product, and with cut point 1/2 and the same
occurrence probability the gate applies. -/
theorem ingrowth_cut_point_spec_witness :
    ingrowth IngModel.gnls ingCx = Real.exp (ingEta IngModel.gnls ingCx) * ingPI IngModel.gnls ingCx :=
  (ingrowth_cut_point_spec IngModel.gnls ingCx).1 rfl

/-- At the concrete stand `sdiCx` the 10-cm-plus ceiling regression is
positive (its specific-gravity term is `-236.9051 · log 0.8 > 0`). -/
theorem sdiCx_primary_pos : 0 < SDImax10 sdiCx := by
  have hrange : dbh10Range sdiCx = 0 := by
    simp only [dbh10Range, sdiCx]
    norm_num
  have h08 : max sdiCx.average_sg_10 (0.80 : ℝ) = 0.8 := by
    simp only [sdiCx]
    norm_num [max_def]
  have hlog : Real.log 0.8 < 0 := Real.log_neg (by norm_num) (by norm_num)
  have e1 : SDImax10 sdiCx = 711.5117 - 236.9051 * Real.log 0.8 := by
    rw [SDImax10, hrange, h08]
    simp only [sdiCx]
    rw [Real.sqrt_zero]
    norm_num
    ring_nf
  rw [e1]
  nlinarith [hlog]

/-- At `sdiCx` the fallback ceiling evaluates to 544.349. -/
theorem sdiCx_fallback_eq : SDImax2 sdiCx = 544.349 := by
  rw [SDImax2]
  simp only [sdiCx]
  norm_num [max_def]

/-- Claim C2 counterexample: at the concrete stand `sdiCx` the primary
10-cm-plus ceiling is strictly positive, yet `rd_10` is NOT the sdi divided
by that primary ceiling — the code substitutes the fallback `SDImax2`
precisely when the primary is positive (stand.cpp:379). -/
theorem rd10_uses_fallback_when_primary_positive :
    0 < SDImax10 sdiCx ∧ rd_10 sdiCx ≠ sdiCx.sdi_10 / SDImax10 sdiCx := by
  have hpos := sdiCx_primary_pos
  have e2 := sdiCx_fallback_eq
  have hrange : dbh10Range sdiCx = 0 := by
    simp only [dbh10Range, sdiCx]
    norm_num
  have h08 : max sdiCx.average_sg_10 (0.80 : ℝ) = 0.8 := by
    simp only [sdiCx]
    norm_num [max_def]
  have hlog : Real.log 0.8 < 0 := Real.log_neg (by norm_num) (by norm_num)
  have e1 : SDImax10 sdiCx = 711.5117 - 236.9051 * Real.log 0.8 := by
    rw [SDImax10, hrange, h08]
    simp only [sdiCx]
    rw [Real.sqrt_zero]
    norm_num
    ring_nf
  have hlt : SDImax2 sdiCx < SDImax10 sdiCx := by
    rw [e1, e2]
    nlinarith [hlog]
  have h2pos : (0 : ℝ) < SDImax2 sdiCx := by
    rw [e2]
    norm_num
  refine ⟨hpos, ?_⟩
  have hv : rd_10 sdiCx = sdiCx.sdi_10 / SDImax2 sdiCx := by
    rw [rd_10, if_pos hpos]
  rw [hv]
  have hs : sdiCx.sdi_10 = 1 := rfl
  rw [hs]
  have : 1 / SDImax10 sdiCx < 1 / SDImax2 sdiCx :=
    one_div_lt_one_div_of_lt h2pos hlt
  exact ne_of_gt this

/-- Claim C2 (amended): the all-trees variant selects the primary ceiling
when it is positive and the fallback otherwise; the 10-cm-plus variant is
inverted — it substitutes the fallback `SDImax2` when the primary is
positive and keeps the (non-positive) primary otherwise; `rd`/`rd_10` are
the corresponding sdi over the selected ceiling. -/
theorem compute_sdi_rd_selection (s : SdiIn) :
    (0 < SDImaxAll s → rd s = s.sdi / SDImaxAll s) ∧
    (¬0 < SDImaxAll s → rd s = s.sdi / SDImax2 s) ∧
    (0 < SDImax10 s → rd_10 s = s.sdi_10 / SDImax2 s) ∧
    (¬0 < SDImax10 s → rd_10 s = s.sdi_10 / SDImax10 s) := by
  refine ⟨fun h => ?_, fun h => ?_, fun h => ?_, fun h => ?_⟩
  · rw [rd, if_pos h]
  · rw [rd, if_neg h]
  · rw [rd_10, if_pos h]
  · rw [rd_10, if_neg h]

/-- Claim C2 witness: at `sdiCx` the positive primary 10-cm ceiling routes
`rd_10` through the fallback. -/
theorem compute_sdi_rd_selection_witness :
    rd_10 sdiCx = sdiCx.sdi_10 / SDImax2 sdiCx :=
  (compute_sdi_rd_selection sdiCx).2.2.1 sdiCx_primary_pos

/-- Claim C7: after `apply_growth_mortality`, on any tree whose updated
height is positive and whose incremented crown base is non-negative, the
crown base does not exceed the height and the recomputed crown ratio
`(ht - hcb)/ht` lies in `[0, 1]`. -/
theorem apply_growth_crown_bound (t : GrowRec ℚ)
    (hht : 0 < t.ht + t.dht) (hhcb : 0 ≤ t.hcb + t.dhcb) :
    (apply_growth_mortality t).hcb ≤ (apply_growth_mortality t).ht ∧
    0 ≤ (apply_growth_mortality t).cr ∧ (apply_growth_mortality t).cr ≤ 1 ∧
    (apply_growth_mortality t).cr =
      ((apply_growth_mortality t).ht - (apply_growth_mortality t).hcb) /
        (apply_growth_mortality t).ht := by
  have hH : (apply_growth_mortality t).ht = t.ht + t.dht := rfl
  have hB : (apply_growth_mortality t).hcb =
      if t.ht + t.dht < t.hcb + t.dhcb then t.ht + t.dht else t.hcb + t.dhcb := rfl
  have hC : (apply_growth_mortality t).cr =
      ((apply_growth_mortality t).ht - (apply_growth_mortality t).hcb) /
        (apply_growth_mortality t).ht := rfl
  refine ⟨?_, ?_, ?_, hC⟩
  · rw [hH, hB]
    by_cases h : t.ht + t.dht < t.hcb + t.dhcb
    · rw [if_pos h]
    · rw [if_neg h]
      exact not_lt.mp h
  · rw [hC, hH, hB]
    by_cases h : t.ht + t.dht < t.hcb + t.dhcb
    · rw [if_pos h]
      simp
    · rw [if_neg h]
      exact div_nonneg (sub_nonneg.mpr (not_lt.mp h)) (le_of_lt hht)
  · rw [hC, hH, hB]
    by_cases h : t.ht + t.dht < t.hcb + t.dhcb
    · rw [if_pos h]
      simp
    · rw [if_neg h]
      rw [div_le_one hht]
      linarith

/-- The thinning-validity guard holds at `eThin`. -/
theorem thinValid_eThin : thinValid eThin := by
  refine ⟨by norm_num [eThin], by norm_num [eThin], by norm_num [eThin],
    by norm_num [eThin], by norm_num [eThin]⟩

/-- One year since thinning at `eThin`. -/
theorem tst_eThin : tst eThin = 1 := by
  simp only [tst, eThin]
  norm_num

/-- The hazard multiplier `rawThin` exceeds 1. -/
theorem one_lt_rawThin : 1 < rawThin := by
  have h := Real.exp_pos (1.7414 + 7.0805 / 101.01)
  unfold rawThin
  nlinarith

/-- `TREE::surv_thin` at the thinned balsam fir returns the reciprocal of
the hazard multiplier. -/
theorem surv_thin_eThin_tFir : surv_thin eThin tFir = 1 / rawThin := by
  have h12 : tFir.spp = 12 := rfl
  have hm : (if thinValid eThin then
      (if tFir.spp = 12 then
        1 + Real.exp (1.7414 + 7.0805 /
            ((100 * eThin.percent_ba_removed + eThin.ba_pre_thin) * eThin.qmdRat + 0.01)) *
          (0.6677 : ℝ) ^ tst eThin * tst eThin ^ (0.8474 : ℝ)
      else if tFir.spp = 97 then
        1 + Real.exp (10.5057 + (-650.8260) /
            (100 * eThin.percent_ba_removed + eThin.ba_pre_thin + 0.01)) *
          (0.6948 : ℝ) ^ tst eThin * tst eThin ^ (0.6429 : ℝ)
      else 1)
    else 1) = rawThin := by
    rw [if_pos thinValid_eThin, if_pos h12, tst_eThin]
    rw [Real.rpow_one, Real.one_rpow]
    norm_num [eThin, rawThin]
  rw [surv_thin]
  rw [hm]
  have hle : 1 / rawThin ≤ 1 := by
    rw [div_le_one (lt_trans one_pos one_lt_rawThin)]
    exact le_of_lt one_lt_rawThin
  rw [if_pos hle]

/-- `TREE::survival_prob` at the thinned balsam fir multiplies the base
survival by the full hazard multiplier `rawThin`: the reciprocal returned
by `surv_thin` is inverted a second time at tree.cpp:477. -/
theorem survival_prob_eThin_tFir :
    survival_prob eThin tFir = baseSurvival tFir * rawThin := by
  have hsbw : eThin.use_sbw = false := rfl
  have hhw : eThin.use_hw = false := rfl
  have hthin : eThin.use_thin = true := rfl
  rw [survival_prob, hsbw, hhw, hthin]
  simp only [if_true, if_false, Bool.false_eq_true]
  rw [surv_thin_eThin_tFir]
  have hne : rawThin ≠ 0 := ne_of_gt (lt_trans one_pos one_lt_rawThin)
  field_simp

/-- The base survival at `tFir` is strictly positive. -/
theorem baseSurvival_tFir_pos : 0 < baseSurvival tFir := by
  have h : Real.exp (-Real.exp (-tFir.m0 + tFir.m1 * (tFir.dbh ^ tFir.m2 / (tFir.bal + 1)))) < 1 := by
    rw [Real.exp_lt_one_iff]
    exact neg_lt_zero.mpr (Real.exp_pos _)
  unfold baseSurvival
  linarith

/-- Claim C3: at the concrete thinned balsam fir, the survival probability
with the thinning modifier enabled strictly EXCEEDS the unmodified base
complementary log-log survival — enabling a modifier improves survival,
contradicting the claim that every modifier can only degrade it.
(`surv_thin` returns the reciprocal hazard `1/m ≤ 1`, and `survival_prob`
multiplies by `1/thin_modifier`, re-inverting it into `m ≥ 1`.) -/
theorem survival_prob_thin_exceeds_base :
    baseSurvival tFir < survival_prob eThin tFir := by
  rw [survival_prob_eThin_tFir]
  nlinarith [baseSurvival_tFir_pos, one_lt_rawThin]

/-- The base survival at `tFir` evaluates to `1 - exp(-1)` (its mortality
coefficients make the linear predictor 0). -/
theorem baseSurvival_tFir_eval : baseSurvival tFir = 1 - Real.exp (-1) := by
  have h0 : -tFir.m0 + tFir.m1 * (tFir.dbh ^ tFir.m2 / (tFir.bal + 1)) = 0 := by
    simp [tFir]
  rw [baseSurvival, h0, Real.exp_zero]

/-- `exp(-1)` is below 0.368. -/
theorem exp_neg_one_lt : Real.exp (-1) < 0.368 := by
  have h := Real.exp_one_gt_d9
  have hpos : (0 : ℝ) < Real.exp 1 := Real.exp_pos 1
  rw [Real.exp_neg]
  rw [inv_lt_comm₀ hpos (by norm_num)]
  nlinarith

/-- The hazard multiplier exceeds 2.81. -/
theorem rawThin_lb : 2.81 < rawThin := by
  have h1 : (1 : ℝ) < 1.7414 + 7.0805 / 101.01 := by norm_num
  have h2 : Real.exp 1 < Real.exp (1.7414 + 7.0805 / 101.01) := Real.exp_lt_exp.mpr h1
  have h3 := Real.exp_one_gt_d9
  unfold rawThin
  nlinarith

/-- The computed survival probability at the thinned fir exceeds 1. -/
theorem survival_prob_eThin_gt_one : 1 < survival_prob eThin tFir := by
  rw [survival_prob_eThin_tFir, baseSurvival_tFir_eval]
  nlinarith [exp_neg_one_lt, rawThin_lb, Real.exp_pos (-1 : ℝ)]

/-- The stand-level thinning mortality multiplier at `eThin` is positive. -/
theorem mort_thin_eThin_pos : 0 < mort_thin eThin := by
  rw [mort_thin, if_pos thinValid_eThin]
  have h1 : (0 : ℝ) < Real.exp (8.3385 + (-601.3096) /
      (100 * eThin.percent_ba_removed + eThin.ba_pre_thin + 0.01)) := Real.exp_pos _
  have h2 : (0 : ℝ) < (0.5507 : ℝ) ^ tst eThin := Real.rpow_pos_of_pos (by norm_num) _
  have h3 : (0 : ℝ) < tst eThin ^ (1.5798 : ℝ) := by
    rw [tst_eThin]
    rw [Real.one_rpow]
    norm_num
  have h4 := mul_pos (mul_pos h1 h2) h3
  linarith

/-- The density decrement `STAND::survival` computes for the thinned fir is
negative (its survival probability exceeds 1). -/
theorem standDtph_eThin_neg : standDtph eThin 8 1 tFir < 0 := by
  have hsbw : eThin.use_sbw = false := rfl
  have hthin : eThin.use_thin = true := rfl
  rw [standDtph, hsbw, hthin]
  simp only [if_true, if_false, Bool.false_eq_true]
  have h1 : 1 - survival_prob eThin tFir < 0 := by
    have := survival_prob_eThin_gt_one
    linarith
  have h2 := mort_thin_eThin_pos
  have h3 : (0 : ℝ) < tFir.tph := by norm_num [tFir]
  have h5 := mul_neg_of_pos_of_neg h3 h1
  have h6 : tFir.tph * (1 - survival_prob eThin tFir) * 1 < 0 := by
    rw [mul_one]
    exact h5
  exact mul_neg_of_neg_of_pos h6 h2

/-- Claim C4: at the thinned balsam fir record `gFir` (ingrowth disabled
throughout), `apply_growth_mortality` strictly INCREASES the represented
density: the survival pass computed a survival probability above 1, so the
density decrement is negative and the subtraction adds density. -/
theorem apply_growth_tph_increases : gFir.tph < (apply_growth_mortality gFir).tph := by
  have hd : gFir.dtph = standDtph eThin 8 1 tFir := rfl
  have hneg : gFir.dtph < 0 := by
    rw [hd]
    exact standDtph_eThin_neg
  have htph : gFir.tph = 40 := rfl
  have hle : gFir.dtph ≤ gFir.tph := by
    rw [htph]
    linarith
  have happ : (apply_growth_mortality gFir).tph =
      gFir.tph - (if gFir.dtph ≤ gFir.tph then gFir.dtph else gFir.tph) := rfl
  rw [happ, if_pos hle]
  linarith

/-- Unfolding of `gtSum` over a cons. -/
theorem gtSum_cons (t : TreeRec) (L : List TreeRec) (d : ℚ) :
    gtSum (t :: L) d = (if d < t.dbh then t.ba else 0) + gtSum L d := by
  simp [gtSum]

/-- `gtSum` distributes over append. -/
theorem gtSum_append (P S : List TreeRec) (d : ℚ) :
    gtSum (P ++ S) d = gtSum P d + gtSum S d := by
  simp [gtSum]

/-- When every record is strictly larger, `gtSum` is the full basal-area
sum. -/
theorem gtSum_of_all_gt (P : List TreeRec) (d : ℚ) (h : ∀ t ∈ P, d < t.dbh) :
    gtSum P d = baSum P := by
  induction P with
  | nil => simp [gtSum, baSum]
  | cons t ts ih =>
    rw [gtSum_cons, if_pos (h t (List.mem_cons_self t ts))]
    rw [ih fun u hu => h u (List.mem_cons_of_mem t hu)]
    simp [baSum]

/-- When no record is strictly larger, `gtSum` vanishes. -/
theorem gtSum_of_none_gt (S : List TreeRec) (d : ℚ) (h : ∀ t ∈ S, t.dbh ≤ d) :
    gtSum S d = 0 := by
  induction S with
  | nil => simp [gtSum]
  | cons t ts ih =>
    rw [gtSum_cons, if_neg (not_lt.mpr (h t (List.mem_cons_self t ts)))]
    rw [ih fun u hu => h u (List.mem_cons_of_mem t hu)]
    ring

/-- `baSum` distributes over append. -/
theorem baSum_append (P Q : List TreeRec) : baSum (P ++ Q) = baSum P + baSum Q := by
  simp [baSum]

/-- `baSum` of a singleton. -/
theorem baSum_singleton (t : TreeRec) : baSum [t] = t.ba := by
  simp [baSum]

/-- Every right-hand member of a `Forall₂` has a related left-hand member. -/
theorem forall2_mem_right {R : TreeRec → TreeRec → Prop} :
    ∀ {l₁ l₂ : List TreeRec}, List.Forall₂ R l₁ l₂ → ∀ b ∈ l₂, ∃ a ∈ l₁, R a b := by
  intro l₁ l₂ h
  induction h with
  | nil =>
    intro b hb
    simp at hb
  | cons hR hF ih =>
    intro b hb
    rcases List.mem_cons.mp hb with rfl | hb
    · exact ⟨_, List.mem_cons_self _ _, hR⟩
    · obtain ⟨a, ha, hr⟩ := ih b hb
      exact ⟨a, List.mem_cons_of_mem _ ha, hr⟩

/-- A `Forall₂` relation preserving the softwood flag restricts to the
softwood sublists. -/
theorem forall2_filter_sw {R : TreeRec → TreeRec → Prop}
    (hp : ∀ a b, R a b → b.sw = a.sw) :
    ∀ {l₁ l₂ : List TreeRec}, List.Forall₂ R l₁ l₂ →
      List.Forall₂ R (l₁.filter (·.sw)) (l₂.filter (·.sw)) := by
  intro l₁ l₂ h
  induction h with
  | nil => exact List.Forall₂.nil
  | cons hR hF ih =>
    rename_i a b as bs
    by_cases hsw : a.sw
    · rw [List.filter_cons_of_pos hsw, List.filter_cons_of_pos (by rw [hp a b hR]; exact hsw)]
      exact List.Forall₂.cons hR ih
    · rw [List.filter_cons_of_neg hsw,
        List.filter_cons_of_neg (by rw [hp a b hR]; exact hsw)]
      exact ih

/-- `gtSum` only reads diameters and basal areas, so it transports along a
`Forall₂` preserving them. -/
theorem gtSum_congr {R : TreeRec → TreeRec → Prop}
    (hp : ∀ a b, R a b → b.dbh = a.dbh ∧ b.ba = a.ba) :
    ∀ {l₁ l₂ : List TreeRec}, List.Forall₂ R l₁ l₂ → ∀ d, gtSum l₁ d = gtSum l₂ d := by
  intro l₁ l₂ h
  induction h with
  | nil => intro d; rfl
  | cons hR hF ih =>
    intro d
    rename_i a b as bs
    rw [gtSum_cons, gtSum_cons, (hp a b hR).1, (hp a b hR).2, ih d]

/-- The invariant of the BAL traversal: processing the sorted remainder `S`
after a processed prefix `P` (the running totals, tie baselines and last
diameters agreeing with `P`) succeeds and assigns every record the basal
area in strictly larger records of the whole list, with the same rule on
the softwood sublist for `bal_sw`. -/
theorem balFold_inv (S : List TreeRec) :
    ∀ (P : List TreeRec) (s : BalState),
      List.Pairwise (fun a b => b.dbh ≤ a.dbh) (P ++ S) →
      s.run = baSum P →
      s.pending = gtSum P s.lastD →
      (∀ t ∈ P, s.lastD ≤ t.dbh) →
      (∀ t ∈ S, t.dbh ≤ s.lastD) →
      s.runSw = baSum (P.filter (·.sw)) →
      s.pendingSw = gtSum (P.filter (·.sw)) s.lastDsw →
      (∀ t ∈ P.filter (·.sw), s.lastDsw ≤ t.dbh) →
      s.lastD ≤ s.lastDsw →
      ∃ out, balFold s S = some out ∧
        List.Forall₂ (fun t u =>
          u.dbh = t.dbh ∧ u.ht = t.ht ∧ u.tph = t.tph ∧ u.ba = t.ba ∧ u.sw = t.sw ∧
          u.bal = gtSum (P ++ S) t.dbh ∧
          (t.sw = true → u.bal_sw = gtSum ((P ++ S).filter (·.sw)) t.dbh)) S out := by
  induction S with
  | nil =>
    intro P s _ _ _ _ _ _ _ _ _
    exact ⟨[], rfl, List.Forall₂.nil⟩
  | cons t ts ih =>
    intro P s hpair hrun hpend hlast hfut hrunsw hpendsw hlastsw hDD
    have hfut_t : t.dbh ≤ s.lastD := hfut t (List.mem_cons_self t ts)
    have htts : ∀ u ∈ ts, u.dbh ≤ t.dbh := by
      have h2 := (List.pairwise_append.mp hpair).2.1
      exact fun u hu => (List.pairwise_cons.mp h2).1 u hu
    have hlist : (P ++ [t]) ++ ts = P ++ t :: ts := by simp
    have hpair' : List.Pairwise (fun a b => b.dbh ≤ a.dbh) ((P ++ [t]) ++ ts) := by
      rwa [hlist]
    have hcons_le : ∀ u ∈ t :: ts, u.dbh ≤ t.dbh := by
      intro u hu
      rcases List.mem_cons.mp hu with rfl | hu
      · exact le_refl _
      · exact htts u hu
    have hnone : gtSum (t :: ts) t.dbh = 0 := gtSum_of_none_gt _ _ hcons_le
    have hnoneSw : gtSum ((t :: ts).filter (·.sw)) t.dbh = 0 :=
      gtSum_of_none_gt _ _ (fun u hu => hcons_le u (List.mem_of_mem_filter hu))
    have hsingle : gtSum [t] t.dbh = 0 :=
      gtSum_of_none_gt _ _ (by
        intro u hu
        rcases List.mem_singleton.mp hu with rfl
        exact le_refl _)
    have hrun' : s.run + t.ba = baSum (P ++ [t]) := by
      rw [baSum_append, baSum_singleton, hrun]
    rcases lt_or_eq_of_le hfut_t with hlt | heq
    · -- strictly decreasing diameter
      have hPgt : ∀ p ∈ P, t.dbh < p.dbh := fun p hp => lt_of_lt_of_le hlt (hlast p hp)
      have hgP : gtSum P t.dbh = baSum P := gtSum_of_all_gt P t.dbh hPgt
      have hfull : gtSum (P ++ t :: ts) t.dbh = s.run := by
        rw [gtSum_append, hgP, hnone, hrun]
        ring
      have hlast' : ∀ p ∈ P ++ [t], t.dbh ≤ p.dbh := by
        intro p hp
        rcases List.mem_append.mp hp with hp | hp
        · exact le_of_lt (hPgt p hp)
        · rcases List.mem_singleton.mp hp with rfl
          exact le_refl _
      have hpend' : s.run = gtSum (P ++ [t]) t.dbh := by
        rw [gtSum_append, hgP, hsingle, hrun]
        ring
      by_cases hswT : t.sw = true
      · -- softwood, necessarily a strict softwood decrease
        have hltsw : t.dbh < s.lastDsw := lt_of_lt_of_le hlt hDD
        have hPswgt : ∀ p ∈ P.filter (·.sw), t.dbh < p.dbh :=
          fun p hp => lt_of_lt_of_le hltsw (hlastsw p hp)
        have hgPsw : gtSum (P.filter (·.sw)) t.dbh = baSum (P.filter (·.sw)) :=
          gtSum_of_all_gt _ _ hPswgt
        have hfilt : (P ++ [t]).filter (·.sw) = P.filter (·.sw) ++ [t] := by
          rw [List.filter_append]
          simp [hswT]
        have hfullSw : gtSum ((P ++ t :: ts).filter (·.sw)) t.dbh = s.runSw := by
          rw [List.filter_append, gtSum_append, hgPsw, hnoneSw, hrunsw]
          ring
        obtain ⟨out', hfold', hrel'⟩ := ih (P ++ [t])
          ⟨t.dbh, s.run, s.run + t.ba, t.dbh, s.runSw, s.runSw + t.ba⟩
          hpair' hrun' hpend' hlast' (fun u hu => htts u hu)
          (by rw [hfilt, baSum_append, baSum_singleton, hrunsw])
          (by rw [hfilt, gtSum_append, hgPsw, hsingle, hrunsw]; ring)
          (by
            intro p hp
            rw [hfilt] at hp
            rcases List.mem_append.mp hp with hp | hp
            · exact le_of_lt (hPswgt p hp)
            · rcases List.mem_singleton.mp hp with rfl
              exact le_refl _)
          le_rfl
        rw [hlist] at hrel'
        refine ⟨{ t with bal := s.run, bal_sw := s.runSw, bal_hw := s.run - s.runSw } :: out', ?_, ?_⟩
        · simp only [balFold, balStep, balStep.balStepSw, hlt, hswT, hltsw, if_true, hfold',
            Option.map_some']
        · exact List.Forall₂.cons
            ⟨rfl, rfl, rfl, rfl, rfl, hfull.symm, fun _ => hfullSw.symm⟩ hrel'
      · -- hardwood
        have hswF : t.sw = false := by
          simpa using hswT
        have hfilt : (P ++ [t]).filter (·.sw) = P.filter (·.sw) := by
          rw [List.filter_append]
          simp [hswF]
        obtain ⟨out', hfold', hrel'⟩ := ih (P ++ [t])
          ⟨t.dbh, s.run, s.run + t.ba, s.lastDsw, s.pendingSw, s.runSw⟩
          hpair' hrun' hpend' hlast' (fun u hu => htts u hu)
          (by rw [hfilt]; exact hrunsw)
          (by rw [hfilt]; exact hpendsw)
          (by rw [hfilt]; exact hlastsw)
          (le_of_lt (lt_of_lt_of_le hlt hDD))
        rw [hlist] at hrel'
        refine ⟨{ t with bal := s.run, bal_sw := s.runSw, bal_hw := s.run - s.runSw } :: out', ?_, ?_⟩
        · simp only [balFold, balStep, balStep.balStepSw, hlt, hswF, if_true,
            Bool.false_eq_true, if_false, hfold', Option.map_some']
        · exact List.Forall₂.cons
            ⟨rfl, rfl, rfl, rfl, rfl, hfull.symm, fun hc => absurd hc (by simp [hswF])⟩ hrel'
    · -- tie with the last processed diameter
      have hnlt : ¬t.dbh < s.lastD := by
        rw [heq]
        exact lt_irrefl _
      have hceq : (t.dbh = s.lastD) = True := by
        simp [heq]
      have hgP : gtSum P t.dbh = s.pending := by
        rw [heq, hpend]
      have hfull : gtSum (P ++ t :: ts) t.dbh = s.pending := by
        rw [gtSum_append, hgP, hnone]
        ring
      have hsingleL : gtSum [t] s.lastD = 0 :=
        gtSum_of_none_gt _ _ (by
          intro u hu
          rcases List.mem_singleton.mp hu with rfl
          exact hfut_t)
      have hpend' : s.pending = gtSum (P ++ [t]) s.lastD := by
        rw [gtSum_append, hsingleL, hpend]
        ring
      have hlast' : ∀ p ∈ P ++ [t], s.lastD ≤ p.dbh := by
        intro p hp
        rcases List.mem_append.mp hp with hp | hp
        · exact hlast p hp
        · rcases List.mem_singleton.mp hp with rfl
          exact le_of_eq heq.symm
      have hfut' : ∀ u ∈ ts, u.dbh ≤ s.lastD := fun u hu => le_trans (htts u hu) hfut_t
      by_cases hswT : t.sw = true
      · have hfutsw_t : t.dbh ≤ s.lastDsw := le_trans hfut_t hDD
        have hfilt : (P ++ [t]).filter (·.sw) = P.filter (·.sw) ++ [t] := by
          rw [List.filter_append]
          simp [hswT]
        rcases lt_or_eq_of_le hfutsw_t with hltsw | heqsw
        · -- overall tie, strict softwood decrease
          have hPswgt : ∀ p ∈ P.filter (·.sw), t.dbh < p.dbh :=
            fun p hp => lt_of_lt_of_le hltsw (hlastsw p hp)
          have hgPsw : gtSum (P.filter (·.sw)) t.dbh = baSum (P.filter (·.sw)) :=
            gtSum_of_all_gt _ _ hPswgt
          have hfullSw : gtSum ((P ++ t :: ts).filter (·.sw)) t.dbh = s.runSw := by
            rw [List.filter_append, gtSum_append, hgPsw, hnoneSw, hrunsw]
            ring
          obtain ⟨out', hfold', hrel'⟩ := ih (P ++ [t])
            ⟨s.lastD, s.pending, s.run + t.ba, t.dbh, s.runSw, s.runSw + t.ba⟩
            hpair' hrun' hpend' hlast' hfut'
            (by rw [hfilt, baSum_append, baSum_singleton, hrunsw])
            (by rw [hfilt, gtSum_append, hgPsw, hsingle, hrunsw]; ring)
            (by
              intro p hp
              rw [hfilt] at hp
              rcases List.mem_append.mp hp with hp | hp
              · exact le_of_lt (hPswgt p hp)
              · rcases List.mem_singleton.mp hp with rfl
                exact le_refl _)
            (le_of_eq heq.symm)
          rw [hlist] at hrel'
          refine ⟨{ t with bal := s.pending, bal_sw := s.runSw, bal_hw := s.pending - s.runSw } :: out', ?_, ?_⟩
          · simp only [balFold, balStep, balStep.balStepSw, hnlt, hceq, hswT, hltsw, if_true,
              if_false, hfold', Option.map_some']
          · exact List.Forall₂.cons
              ⟨rfl, rfl, rfl, rfl, rfl, hfull.symm, fun _ => hfullSw.symm⟩ hrel'
        · -- overall tie, softwood tie
          have hnltsw : ¬t.dbh < s.lastDsw := by
            rw [heqsw]
            exact lt_irrefl _
          have hceqsw : (t.dbh = s.lastDsw) = True := by
            simp [heqsw]
          have hgPsw : gtSum (P.filter (·.sw)) t.dbh = s.pendingSw := by
            rw [heqsw, hpendsw]
          have hfullSw : gtSum ((P ++ t :: ts).filter (·.sw)) t.dbh = s.pendingSw := by
            rw [List.filter_append, gtSum_append, hgPsw, hnoneSw]
            ring
          have hsingleSw : gtSum [t] s.lastDsw = 0 :=
            gtSum_of_none_gt _ _ (by
              intro u hu
              rcases List.mem_singleton.mp hu with rfl
              exact hfutsw_t)
          obtain ⟨out', hfold', hrel'⟩ := ih (P ++ [t])
            ⟨s.lastD, s.pending, s.run + t.ba, s.lastDsw, s.pendingSw, s.runSw + t.ba⟩
            hpair' hrun' hpend' hlast' hfut'
            (by rw [hfilt, baSum_append, baSum_singleton, hrunsw])
            (by rw [hfilt, gtSum_append, hsingleSw, hpendsw]; ring)
            (by
              intro p hp
              rw [hfilt] at hp
              rcases List.mem_append.mp hp with hp | hp
              · exact hlastsw p hp
              · rcases List.mem_singleton.mp hp with rfl
                exact le_of_eq heqsw.symm)
            hDD
          rw [hlist] at hrel'
          refine ⟨{ t with bal := s.pending, bal_sw := s.pendingSw, bal_hw := s.pending - s.pendingSw } :: out', ?_, ?_⟩
          · simp only [balFold, balStep, balStep.balStepSw, hnlt, hceq, hswT, hnltsw, hceqsw,
              if_true, if_false, hfold', Option.map_some']
          · exact List.Forall₂.cons
              ⟨rfl, rfl, rfl, rfl, rfl, hfull.symm, fun _ => hfullSw.symm⟩ hrel'
      · -- overall tie, hardwood
        have hswF : t.sw = false := by
          simpa using hswT
        have hfilt : (P ++ [t]).filter (·.sw) = P.filter (·.sw) := by
          rw [List.filter_append]
          simp [hswF]
        obtain ⟨out', hfold', hrel'⟩ := ih (P ++ [t])
          ⟨s.lastD, s.pending, s.run + t.ba, s.lastDsw, s.pendingSw, s.runSw⟩
          hpair' hrun' hpend' hlast' hfut'
          (by rw [hfilt]; exact hrunsw)
          (by rw [hfilt]; exact hpendsw)
          (by rw [hfilt]; exact hlastsw)
          hDD
        rw [hlist] at hrel'
        refine ⟨{ t with bal := s.pending, bal_sw := s.runSw, bal_hw := s.pending - s.runSw } :: out', ?_, ?_⟩
        · simp only [balFold, balStep, balStep.balStepSw, hnlt, hceq, hswF, if_true,
            Bool.false_eq_true, if_false, hfold', Option.map_some']
        · exact List.Forall₂.cons
            ⟨rfl, rfl, rfl, rfl, rfl, hfull.symm, fun hc => absurd hc (by simp [hswF])⟩ hrel'

/-- A successful BAL traversal bounds the leading (largest) diameter by the
9999 sentinel seeding `last_dbh`. -/
theorem balFold_head_bound (t0 : TreeRec) (rest out : List TreeRec)
    (h : balFold balInit (t0 :: rest) = some out) : t0.dbh ≤ 9999 := by
  by_contra hc
  push_neg at hc
  have h1 : ¬t0.dbh < balInit.lastD := not_lt.mpr (le_of_lt hc)
  have h2 : ¬t0.dbh = balInit.lastD := ne_of_gt hc
  simp only [balFold, balStep, h1, h2, if_false] at h
  exact Option.noConfusion h

/-- Claim C1: whenever `compute_ba_tph_bal` returns a tree list, every
record's `bal` is exactly the summed basal area of the records with
strictly greater diameter, so any two records of equal diameter share the
same `bal`; and every softwood record's `bal_sw` is the summed basal area
of the strictly larger softwoods, so tied softwoods share `bal_sw`. -/
theorem compute_ba_tph_bal_tie (l out : List TreeRec)
    (h : compute_ba_tph_bal l = some out) :
    (∀ t ∈ out, t.bal = gtSum out t.dbh) ∧
    (∀ t ∈ out, ∀ u ∈ out, t.dbh = u.dbh → t.bal = u.bal) ∧
    (∀ t ∈ out, t.sw = true → t.bal_sw = gtSum (out.filter (·.sw)) t.dbh) ∧
    (∀ t ∈ out, ∀ u ∈ out, t.dbh = u.dbh → t.sw = true → u.sw = true →
      t.bal_sw = u.bal_sw) := by
  have hsorted : List.Pairwise (fun a b => b.dbh ≤ a.dbh) (sortDesc (·.dbh) l) :=
    List.sorted_insertionSort (keyGE (·.dbh)) l
  rw [compute_ba_tph_bal] at h
  rcases hS : sortDesc (·.dbh) l with _ | ⟨t0, rest⟩
  · rw [hS] at h
    have hout : out = [] := by
      have h0 : (some [] : Option (List TreeRec)) = some out := h
      exact (Option.some.inj h0).symm
    subst hout
    refine ⟨?_, ?_, ?_, ?_⟩ <;> intro t ht <;> simp at ht
  · rw [hS] at h hsorted
    have h99 := balFold_head_bound t0 rest out h
    have hfut : ∀ u ∈ t0 :: rest, u.dbh ≤ (9999 : ℚ) := by
      intro u hu
      rcases List.mem_cons.mp hu with rfl | hu
      · exact h99
      · have h2 := (List.pairwise_cons.mp hsorted).1 u hu
        linarith
    obtain ⟨out', hfold', hrel⟩ := balFold_inv (t0 :: rest) [] balInit
      (by simpa using hsorted)
      (by simp [balInit, baSum])
      (by simp [balInit, gtSum])
      (by simp)
      hfut
      (by simp [balInit, baSum])
      (by simp [balInit, gtSum])
      (by simp)
      le_rfl
    rw [hfold'] at h
    have hout : out' = out := Option.some.inj h
    rw [hout] at hrel
    have hrel' : List.Forall₂ (fun (t u : TreeRec) =>
        u.dbh = t.dbh ∧ u.ht = t.ht ∧ u.tph = t.tph ∧ u.ba = t.ba ∧ u.sw = t.sw ∧
        u.bal = gtSum (t0 :: rest) t.dbh ∧
        (t.sw = true → u.bal_sw = gtSum ((t0 :: rest).filter (·.sw)) t.dbh))
        (t0 :: rest) out := by
      simpa using hrel
    have hproj : ∀ a b, (fun (t u : TreeRec) =>
        u.dbh = t.dbh ∧ u.ht = t.ht ∧ u.tph = t.tph ∧ u.ba = t.ba ∧ u.sw = t.sw ∧
        u.bal = gtSum (t0 :: rest) t.dbh ∧
        (t.sw = true → u.bal_sw = gtSum ((t0 :: rest).filter (·.sw)) t.dbh)) a b →
        b.dbh = a.dbh ∧ b.ba = a.ba := fun a b hr => ⟨hr.1, hr.2.2.2.1⟩
    have hswp : ∀ a b, (fun (t u : TreeRec) =>
        u.dbh = t.dbh ∧ u.ht = t.ht ∧ u.tph = t.tph ∧ u.ba = t.ba ∧ u.sw = t.sw ∧
        u.bal = gtSum (t0 :: rest) t.dbh ∧
        (t.sw = true → u.bal_sw = gtSum ((t0 :: rest).filter (·.sw)) t.dbh)) a b →
        b.sw = a.sw := fun a b hr => hr.2.2.2.2.1
    have hgt : ∀ d, gtSum (t0 :: rest) d = gtSum out d := gtSum_congr hproj hrel'
    have hgtF : ∀ d, gtSum ((t0 :: rest).filter (·.sw)) d =
        gtSum (out.filter (·.sw)) d :=
      gtSum_congr hproj (forall2_filter_sw hswp hrel')
    have H1 : ∀ t ∈ out, t.bal = gtSum out t.dbh := by
      intro t ht
      obtain ⟨a, _, hr⟩ := forall2_mem_right hrel' t ht
      rw [hr.2.2.2.2.2.1, ← hr.1, hgt]
    have H3 : ∀ t ∈ out, t.sw = true → t.bal_sw = gtSum (out.filter (·.sw)) t.dbh := by
      intro t ht hsw
      obtain ⟨a, _, hr⟩ := forall2_mem_right hrel' t ht
      have hasw : a.sw = true := by
        rw [← hr.2.2.2.2.1]
        exact hsw
      rw [hr.2.2.2.2.2.2 hasw, ← hr.1, hgtF]
    refine ⟨H1, ?_, H3, ?_⟩
    · intro t ht u hu hd
      rw [H1 t ht, H1 u hu, hd]
    · intro t ht u hu hd hts hus
      rw [H3 t ht hts, H3 u hu hus, hd]

/-- Summing an indicator of a key over a list without that key vanishes. -/
theorem sum_ite_not_mem {K : Type} [DecidableEq K] (k0 : K) (v : ℝ) :
    ∀ l : List K, k0 ∉ l → (l.map (fun a => if k0 = a then v else 0)).sum = 0 := by
  intro l
  induction l with
  | nil => intro _; simp
  | cons b bs ih =>
    intro h
    have hb : k0 ≠ b := fun hc => h (hc ▸ List.mem_cons_self b bs)
    simp only [List.map_cons, List.sum_cons, if_neg hb]
    rw [ih (fun hc => h (List.mem_cons_of_mem b hc))]
    ring

/-- Summing an indicator of a key over a duplicate-free list containing it
yields the value once. -/
theorem sum_ite_mem {K : Type} [DecidableEq K] (k0 : K) (v : ℝ) :
    ∀ l : List K, l.Nodup → k0 ∈ l →
      (l.map (fun a => if k0 = a then v else 0)).sum = v := by
  intro l
  induction l with
  | nil =>
    intro _ h
    simp at h
  | cons b bs ih =>
    intro hnd h
    rcases List.mem_cons.mp h with rfl | hm
    · rw [List.map_cons, List.sum_cons, if_pos rfl,
        sum_ite_not_mem k0 v bs (List.nodup_cons.mp hnd).1, add_zero]
    · have hb : k0 ≠ b := by
        rintro rfl
        exact (List.nodup_cons.mp hnd).1 hm
      simp only [List.map_cons, List.sum_cons, if_neg hb]
      rw [ih (List.nodup_cons.mp hnd).2 hm]
      ring

/-- Partition of a sum by the fibers of a key function: summing the
per-key fiber sums over a duplicate-free key list covering the data equals
the total (the reason the unordered C++ maps conserve their totals). -/
theorem fiber_sum {A K : Type} [DecidableEq K] (k : A → K) (v : A → ℝ) :
    ∀ (l : List A) (keys : List K), keys.Nodup → (∀ x ∈ l, k x ∈ keys) →
      (keys.map (fun a => ((l.filter (fun x => k x = a)).map v).sum)).sum =
        (l.map v).sum := by
  intro l
  induction l with
  | nil =>
    intro keys _ _
    simp
  | cons x xs ih =>
    intro keys hnd hmem
    have hx := hmem x (List.mem_cons_self x xs)
    have hxs : ∀ y ∈ xs, k y ∈ keys := fun y hy => hmem y (List.mem_cons_of_mem x hy)
    have hsplit : ∀ a ∈ keys,
        (((x :: xs).filter (fun y => k y = a)).map v).sum =
          (if k x = a then v x else 0) + ((xs.filter (fun y => k y = a)).map v).sum := by
      intro a _
      by_cases h : k x = a
      · rw [List.filter_cons_of_pos (by simp [h])]
        simp [h]
      · rw [List.filter_cons_of_neg (by simp [h])]
        simp [h]
    rw [List.map_congr_left hsplit, List.sum_map_add, sum_ite_mem (k x) (v x) keys hnd hx,
      ih keys hnd hxs]
    simp

/-- Constants factor out of a mapped sum. -/
theorem sum_map_smul {A : Type} (c : ℝ) (f : A → ℝ) :
    ∀ l : List A, (l.map (fun x => c * f x)).sum = c * (l.map f).sum := by
  intro l
  induction l with
  | nil => simp
  | cons x xs ih =>
    simp only [List.map_cons, List.sum_cons, ih]
    ring

/-- Sums over a flatMap decompose into the outer sum of inner sums. -/
theorem sum_map_flatMap {A B : Type} (v : B → ℝ) (F : A → List B) :
    ∀ l : List A, ((l.flatMap F).map v).sum = (l.map (fun a => ((F a).map v).sum)).sum := by
  intro l
  induction l with
  | nil => simp
  | cons x xs ih =>
    simp only [List.flatMap_cons, List.map_append, List.sum_append, List.map_cons,
      List.sum_cons, ih]

/-- The plot shares of a species partition its basal area. -/
theorem plot_fiber (l : List IngTree) (s : ℤ) :
    ((plotKeys l).map (fun p => plot_spp l p s)).sum = ba_spp l s := by
  have hfl : ∀ p : ℕ, l.filter (fun t => t.plot = p ∧ sppKey t = s) =
      (l.filter (fun t => sppKey t = s)).filter (fun x => IngTree.plot x = p) := by
    intro p
    rw [List.filter_filter]
    apply List.filter_congr
    intro t _
    simp [Bool.and_comm]
  have h := fiber_sum IngTree.plot IngTree.ba
    (l.filter (fun t => sppKey t = s)) (plotKeys l)
    (List.nodup_dedup _)
    (fun x hx => List.mem_dedup.mpr (List.mem_map_of_mem _ (List.mem_of_mem_filter hx)))
  rw [ba_spp, ← h]
  apply congrArg
  apply List.map_congr_left
  intro p _
  rw [plot_spp, hfl p]

/-- The species basal areas of a group partition the group basal area. -/
theorem spp_fiber (l : List IngTree) (g : ℤ) :
    (((sppKeys l).filter (fun s => grpOf s = g)).map (fun s => ba_spp l s)).sum =
      ba_grp l g := by
  have hfl : ∀ s : ℤ, grpOf s = g →
      l.filter (fun t => sppKey t = s) =
        (l.filter (fun t => grpKey t = g)).filter (fun x => sppKey x = s) := by
    intro s hg
    rw [List.filter_filter]
    apply List.filter_congr
    intro t _
    by_cases hts : sppKey t = s
    · have hgt : grpKey t = g := by
        rw [grpKey, hts, hg]
      simp [hts, hgt]
    · simp [hts]
  have h := fiber_sum sppKey IngTree.ba
    (l.filter (fun t => grpKey t = g)) ((sppKeys l).filter (fun s => grpOf s = g))
    ((List.nodup_dedup _).filter _)
    (fun x hx => by
      have hx1 := List.mem_of_mem_filter hx
      have hx2 : grpKey x = g := of_decide_eq_true (List.mem_filter.mp hx).2
      refine List.mem_filter.mpr ⟨List.mem_dedup.mpr (List.mem_map_of_mem _ hx1), ?_⟩
      exact decide_eq_true hx2)
  rw [ba_grp, ← h]
  apply congrArg
  apply List.map_congr_left
  intro s hs
  have hg : grpOf s = g := of_decide_eq_true (List.mem_filter.mp hs).2
  rw [ba_spp, hfl s hg]

/-- Species basal areas are positive on stands of positive-basal-area
records. -/
theorem ba_spp_pos (l : List IngTree) (hba : ∀ t ∈ l, 0 < t.ba) (s : ℤ)
    (hs : s ∈ sppKeys l) : 0 < ba_spp l s := by
  obtain ⟨t, ht, hts⟩ := List.mem_map.mp (List.mem_dedup.mp hs)
  apply List.sum_pos
  · intro x hx
    obtain ⟨u, hu, rfl⟩ := List.mem_map.mp hx
    exact hba u (List.mem_of_mem_filter hu)
  · have htf : t ∈ l.filter (fun u => sppKey u = s) :=
      List.mem_filter.mpr ⟨ht, decide_eq_true hts⟩
    intro hc
    rw [List.map_eq_nil_iff] at hc
    rw [hc] at htf
    simp at htf

/-- Group basal areas are positive on stands of positive-basal-area
records. -/
theorem ba_grp_pos (l : List IngTree) (hba : ∀ t ∈ l, 0 < t.ba) (g : ℤ)
    (hg : g ∈ grpKeys l) : 0 < ba_grp l g := by
  obtain ⟨t, ht, hts⟩ := List.mem_map.mp (List.mem_dedup.mp hg)
  apply List.sum_pos
  · intro x hx
    obtain ⟨u, hu, rfl⟩ := List.mem_map.mp hx
    exact hba u (List.mem_of_mem_filter hu)
  · have htf : t ∈ l.filter (fun u => grpKey u = g) :=
      List.mem_filter.mpr ⟨ht, decide_eq_true hts⟩
    intro hc
    rw [List.map_eq_nil_iff] at hc
    rw [hc] at htf
    simp at htf

/-- Plot shares are non-negative on such stands. -/
theorem plot_spp_nonneg (l : List IngTree) (hba : ∀ t ∈ l, 0 < t.ba) (p : ℕ) (s : ℤ) :
    0 ≤ plot_spp l p s := by
  apply List.sum_nonneg
  intro x hx
  obtain ⟨u, hu, rfl⟩ := List.mem_map.mp hx
  exact le_of_lt (hba u (List.mem_of_mem_filter hu))

/-- The logistic transform is positive. -/
theorem logistic_pos (x : ℝ) : 0 < logistic x := by
  rw [logistic]
  positivity

/-- The group-percent normalizer is positive on nonempty stands. -/
theorem totalPercent_pos (l : List IngTree) (csi minDbh : ℝ) (hne : l ≠ []) :
    0 < totalPercent l csi minDbh := by
  rw [totalPercent]
  apply List.sum_pos
  · intro x hx
    obtain ⟨g, _, rfl⟩ := List.mem_map.mp hx
    exact logistic_pos _
  · intro hc
    rw [List.map_eq_nil_iff, grpKeys, List.dedup_eq_nil, List.map_eq_nil_iff] at hc
    exact hne hc

/-- The normalized group allocations sum to the total ingrowth. -/
theorem grpAlloc_sum (l : List IngTree) (csi minDbh IPH : ℝ) (hne : l ≠ []) :
    ((grpKeys l).map (grpAlloc l csi minDbh IPH)).sum = IPH := by
  have hT := totalPercent_pos l csi minDbh hne
  have h1 : ∀ g ∈ grpKeys l, grpAlloc l csi minDbh IPH g =
      (IPH / totalPercent l csi minDbh) * grpPercent l csi minDbh g := by
    intro g _
    rw [grpAlloc]
    ring
  rw [List.map_congr_left h1, sum_map_smul, ← totalPercent]
  field_simp

/-- The per-species allocations sum to the group allocations. -/
theorem sppAlloc_sum (l : List IngTree) (csi minDbh IPH : ℝ)
    (hba : ∀ t ∈ l, 0 < t.ba) :
    ((sppKeys l).map (sppAlloc l csi minDbh IPH)).sum =
      ((grpKeys l).map (grpAlloc l csi minDbh IPH)).sum := by
  have hmem : ∀ s ∈ sppKeys l, grpOf s ∈ grpKeys l := by
    intro s hs
    obtain ⟨t, ht, rfl⟩ := List.mem_map.mp (List.mem_dedup.mp hs)
    exact List.mem_dedup.mpr (List.mem_map_of_mem _ ht)
  rw [← fiber_sum grpOf (sppAlloc l csi minDbh IPH) (sppKeys l) (grpKeys l)
    (List.nodup_dedup _) hmem]
  congr 1
  apply List.map_congr_left
  intro g hg
  have hgrp := ba_grp_pos l hba g hg
  have h1 : ∀ s ∈ (sppKeys l).filter (fun s => grpOf s = g),
      sppAlloc l csi minDbh IPH s =
        (grpAlloc l csi minDbh IPH g / ba_grp l g) * ba_spp l s := by
    intro s hs
    have hgs : grpOf s = g := of_decide_eq_true (List.mem_filter.mp hs).2
    rw [sppAlloc, hgs]
    ring
  rw [List.map_congr_left h1, sum_map_smul, spp_fiber]
  field_simp

/-- The guarded plot records of one species sum to the species allocation. -/
theorem filterMap_guard_sum (s : ℤ) (A : ℝ) (shr : ℕ → ℝ) :
    ∀ ks : List ℕ,
      (((ks.filterMap (fun p => if 0 < shr p then some (p, s, A * shr p) else none)).map
        (fun r => r.2.2)).sum) =
        (ks.map (fun p => if 0 < shr p then A * shr p else 0)).sum := by
  intro ks
  induction ks with
  | nil => simp
  | cons p ps ih =>
    by_cases h : 0 < shr p
    · simp only [List.filterMap_cons, if_pos h, List.map_cons, List.sum_cons, ih]
    · simp only [List.filterMap_cons, if_neg h, ih, List.map_cons, List.sum_cons]
      ring

/-- Claim C10 (amended): when every tree record has strictly positive
basal area (not merely the stand total), the represented densities of the
records `ingrowth_composition` creates sum exactly to the allocated
recruits per hectare: group shares normalize to 1, species shares exhaust
each group, and plot shares exhaust each species. -/
theorem ingrowth_composition_conserves (l : List IngTree) (csi minDbh IPH : ℝ)
    (hne : l ≠ []) (hba : ∀ t ∈ l, 0 < t.ba) :
    newTphTotal l csi minDbh IPH = IPH := by
  rw [newTphTotal, newRecords, sum_map_flatMap]
  have hinner : ∀ s ∈ sppKeys l,
      (((plotKeys l).filterMap (fun p =>
        let share := plot_spp l p s / ba_spp l s
        if 0 < share then some (p, s, sppAlloc l csi minDbh IPH s * share) else none)).map
        (fun r => r.2.2)).sum = sppAlloc l csi minDbh IPH s := by
    intro s hs
    have hpos := ba_spp_pos l hba s hs
    show (((plotKeys l).filterMap (fun p =>
        if 0 < plot_spp l p s / ba_spp l s then
          some (p, s, sppAlloc l csi minDbh IPH s * (plot_spp l p s / ba_spp l s))
        else none)).map (fun r => r.2.2)).sum = sppAlloc l csi minDbh IPH s
    rw [filterMap_guard_sum s (sppAlloc l csi minDbh IPH s)
      (fun p => plot_spp l p s / ba_spp l s) (plotKeys l)]
    have hnn : ∀ p ∈ plotKeys l, 0 ≤ plot_spp l p s / ba_spp l s :=
      fun p _ => div_nonneg (plot_spp_nonneg l hba p s) (le_of_lt hpos)
    have hite : ∀ p ∈ plotKeys l,
        (if 0 < plot_spp l p s / ba_spp l s then
          sppAlloc l csi minDbh IPH s * (plot_spp l p s / ba_spp l s) else 0) =
        (sppAlloc l csi minDbh IPH s / ba_spp l s) * plot_spp l p s := by
      intro p hp
      rcases lt_or_eq_of_le (hnn p hp) with h | h
      · rw [if_pos h]
        ring
      · rw [if_neg (by rw [← h]; exact lt_irrefl 0)]
        rcases div_eq_zero_iff.mp h.symm with hz | hz
        · rw [hz, mul_zero]
        · exact absurd hz (ne_of_gt hpos)
    rw [List.map_congr_left hite, sum_map_smul, plot_fiber]
    field_simp
  rw [List.map_congr_left hinner, sppAlloc_sum l csi minDbh IPH hba,
    grpAlloc_sum l csi minDbh IPH hne]

/-- Claim C10 counterexample: the stand `l10` has positive total basal
area and every species is enumerated in the cross walk, yet the created
densities sum to strictly less than the allocated total: the zero-basal-
area red maple's group receives a normalized share that is then lost in
the 0/0 species allocation. -/
theorem ingrowth_total_not_conserved :
    0 < standBa l10 ∧ (∀ t ∈ l10, (cross_walk t.spp).isSome = true) ∧
      newTphTotal l10 1 1 1 ≠ 1 := by
  have h1 : sppKeys l10 = [12, 316] := rfl
  have h3 : plotKeys l10 = [1] := rfl
  have h4 : ba_spp l10 12 = 1 := by
    rw [ba_spp, show l10.filter (fun t => sppKey t = 12) = [{ plot := 1, spp := 12, sw := true, ba := 1 }] from rfl]
    norm_num
  have h5 : ba_spp l10 316 = 0 := by
    rw [ba_spp, show l10.filter (fun t => sppKey t = 316) = [{ plot := 1, spp := 316, sw := false, ba := 0 }] from rfl]
    norm_num
  have h6 : ba_grp l10 12 = 1 := by
    rw [ba_grp, show l10.filter (fun t => grpKey t = 12) = [{ plot := 1, spp := 12, sw := true, ba := 1 }] from rfl]
    norm_num
  have h7 : plot_spp l10 1 12 = 1 := by
    rw [plot_spp, show l10.filter (fun t => t.plot = 1 ∧ sppKey t = 12) = [{ plot := 1, spp := 12, sw := true, ba := 1 }] from rfl]
    norm_num
  have h8 : plot_spp l10 1 316 = 0 := by
    rw [plot_spp, show l10.filter (fun t => t.plot = 1 ∧ sppKey t = 316) = [{ plot := 1, spp := 316, sw := false, ba := 0 }] from rfl]
    norm_num
  have hP12 : 0 < grpPercent l10 1 1 12 := logistic_pos _
  have hP316 : 0 < grpPercent l10 1 1 316 := logistic_pos _
  have hT : totalPercent l10 1 1 = grpPercent l10 1 1 12 + grpPercent l10 1 1 316 := by
    rw [totalPercent, show grpKeys l10 = [12, 316] from rfl]
    simp
  have hval : newTphTotal l10 1 1 1 =
      grpPercent l10 1 1 12 / (grpPercent l10 1 1 12 + grpPercent l10 1 1 316) := by
    rw [newTphTotal, newRecords, h1, h3]
    simp only [List.flatMap_cons, List.flatMap_nil, List.filterMap_cons, List.filterMap_nil,
      List.append_nil]
    rw [h7, h4, h8, h5]
    norm_num
    rw [sppAlloc, show grpOf 12 = 12 from rfl, h4, h6, grpAlloc, hT]
    norm_num
  refine ⟨by norm_num [standBa, l10], by decide, ?_⟩
  rw [hval]
  have hlt : grpPercent l10 1 1 12 / (grpPercent l10 1 1 12 + grpPercent l10 1 1 316) < 1 := by
    rw [div_lt_one (by linarith)]
    linarith
  exact ne_of_lt hlt

/-- Claim C10 witness: a one-record positive stand conserves an allocation
of 5 recruits per hectare. -/
theorem ingrowth_composition_conserves_witness : newTphTotal lW 1 1 5 = 5 :=
  ingrowth_composition_conserves lW 1 1 5 (by simp [lW]) (by
    intro t ht
    rcases List.mem_singleton.mp ht with rfl
    norm_num)

/-- Density sums are non-negative over non-negative records. -/
theorem tphSum_nonneg (L : List TreeRec) (h : ∀ t ∈ L, 0 ≤ t.tph) : 0 ≤ tphSum L := by
  induction L with
  | nil => simp [tphSum]
  | cons t ts ih =>
    have h1 := h t (List.mem_cons_self t ts)
    have h2 : ∀ u ∈ ts, 0 ≤ u.tph := fun u hu => h u (List.mem_cons_of_mem t hu)
    have h3 := ih h2
    simp only [tphSum, List.map_cons, List.sum_cons]
    simp only [tphSum] at h3
    linarith

/-- The cohort weight of one record is the increment of the clamped
cumulative density. -/
theorem weight_eq (a tph : ℚ) (h : 0 ≤ tph) :
    min tph (max (100 - a) 0) = min (a + tph) 100 - min a 100 := by
  rcases le_total a 100 with h1 | h1
  · rw [min_eq_left h1, max_eq_left (by linarith : (0 : ℚ) ≤ 100 - a)]
    rcases le_total (a + tph) 100 with h2 | h2
    · rw [min_eq_left h2, min_eq_left (by linarith : tph ≤ 100 - a)]
      ring
    · rw [min_eq_right h2, min_eq_right (by linarith : 100 - a ≤ tph)]
  · rw [min_eq_right h1, max_eq_right (by linarith : 100 - a ≤ 0)]
    rw [min_eq_right h, min_eq_right (by linarith : (100 : ℚ) ≤ a + tph)]
    ring

/-- The cohort weights telescope: their sum is the clamped density gained. -/
theorem cohortWeights_sum (L : List TreeRec) :
    ∀ a, (∀ t ∈ L, 0 ≤ t.tph) →
      (cohortWeights a L).sum = min (a + tphSum L) 100 - min a 100 := by
  induction L with
  | nil =>
    intro a _
    simp [cohortWeights, tphSum]
  | cons t ts ih =>
    intro a h
    have h1 := h t (List.mem_cons_self t ts)
    have h2 : ∀ u ∈ ts, 0 ≤ u.tph := fun u hu => h u (List.mem_cons_of_mem t hu)
    have hsum : tphSum (t :: ts) = t.tph + tphSum ts := by
      simp [tphSum]
    simp only [cohortWeights, List.sum_cons]
    rw [ih (a + t.tph) h2, weight_eq a t.tph h1, hsum]
    have e : a + (t.tph + tphSum ts) = a + t.tph + tphSum ts := by ring
    rw [e]
    ring

/-- When the whole remaining density fits under the 100 threshold every
record gets its full density as weight. -/
theorem wsum_full (L : List TreeRec) :
    ∀ a, 0 ≤ a → (∀ t ∈ L, 0 ≤ t.tph) → a + tphSum L ≤ 100 →
      wsum a L = htTphSum L := by
  induction L with
  | nil =>
    intro a _ _ _
    simp [wsum, htTphSum]
  | cons t ts ih =>
    intro a ha h hle
    have h1 := h t (List.mem_cons_self t ts)
    have h2 : ∀ u ∈ ts, 0 ≤ u.tph := fun u hu => h u (List.mem_cons_of_mem t hu)
    have hts := tphSum_nonneg ts h2
    have hsum : tphSum (t :: ts) = t.tph + tphSum ts := by
      simp [tphSum]
    rw [hsum] at hle
    simp only [wsum, htTphSum, List.map_cons, List.sum_cons]
    rw [ih (a + t.tph) (by linarith) h2 (by linarith)]
    rw [max_eq_left (by linarith : (0 : ℚ) ≤ 100 - a),
      min_eq_left (by linarith : t.tph ≤ 100 - a)]
    simp [htTphSum]

/-- The weighted sum is the zipWith form of the cohort-weight product. -/
theorem wsum_zipWith (L : List TreeRec) :
    ∀ a, wsum a L =
      (List.zipWith (fun t w => t.ht * w) L (cohortWeights a L)).sum := by
  induction L with
  | nil =>
    intro a
    simp [wsum, cohortWeights]
  | cons t ts ih =>
    intro a
    simp only [wsum, cohortWeights, List.zipWith, List.sum_cons]
    rw [ih (a + t.tph)]

/-- The invariant of the `compute_topht` accumulation loop: starting from an
already-accumulated (clamped) density, the fold adds the cohort-weighted
height sum and clamps the density at 100. -/
theorem topht_fold (L : List TreeRec) :
    ∀ a h, 0 ≤ a → (∀ t ∈ L, 0 ≤ t.tph) →
      L.foldl tophtStep (h, min a 100) = (h + wsum a L, min (a + tphSum L) 100) := by
  induction L with
  | nil =>
    intro a h _ _
    simp [wsum, tphSum]
  | cons t ts ih =>
    intro a h ha hnn
    have h1 := hnn t (List.mem_cons_self t ts)
    have h2 : ∀ u ∈ ts, 0 ≤ u.tph := fun u hu => hnn u (List.mem_cons_of_mem t hu)
    have hsum : tphSum (t :: ts) = t.tph + tphSum ts := by
      simp [tphSum]
    rw [List.foldl_cons]
    by_cases hA : min a 100 + t.tph ≤ 100
    · rcases le_total a 100 with h100 | h100
      · have hmin : min a 100 = a := min_eq_left h100
        have hA' : a + t.tph ≤ 100 := by rwa [hmin] at hA
        have hstep : tophtStep (h, min a 100) t = (h + t.ht * t.tph, min (a + t.tph) 100) := by
          simp only [tophtStep, hmin]
          rw [if_pos hA', min_eq_left hA']
        rw [hstep, ih (a + t.tph) (h + t.ht * t.tph) (by linarith) h2]
        have hw : wsum a (t :: ts) = t.ht * t.tph + wsum (a + t.tph) ts := by
          simp only [wsum]
          rw [max_eq_left (by linarith : (0 : ℚ) ≤ 100 - a),
            min_eq_left (by linarith : t.tph ≤ 100 - a)]
        rw [hsum, hw]
        have e1 : h + (t.ht * t.tph + wsum (a + t.tph) ts) =
            h + t.ht * t.tph + wsum (a + t.tph) ts := by ring
        have e2 : a + (t.tph + tphSum ts) = a + t.tph + tphSum ts := by ring
        rw [e1, e2]
      · have hmin : min a 100 = 100 := min_eq_right h100
        have htph0 : t.tph = 0 := by
          rw [hmin] at hA
          linarith
        have hstep : tophtStep (h, min a 100) t = (h, min a 100) := by
          simp only [tophtStep, hmin]
          rw [if_pos (by rw [htph0]; norm_num), htph0]
          norm_num
        rw [hstep, ih a h ha h2]
        have hw : wsum a (t :: ts) = wsum a ts := by
          simp only [wsum, htph0]
          rw [min_eq_left (le_max_right (100 - a) 0)]
          ring_nf
        rw [hsum, hw, htph0, zero_add]
    · by_cases hB : min a 100 < 100
      · have h100 : a ≤ 100 := by
          by_contra hc
          push_neg at hc
          rw [min_eq_right (le_of_lt hc)] at hB
          exact lt_irrefl _ hB
        have hmin : min a 100 = a := min_eq_left h100
        have hgt : 100 < a + t.tph := by
          rw [hmin] at hA
          linarith [not_le.mp hA]
        have hstep : tophtStep (h, min a 100) t = (h + t.ht * (100 - a), min (a + t.tph) 100) := by
          simp only [tophtStep, hmin]
          rw [if_neg (show ¬a + t.tph ≤ 100 by rw [hmin] at hA; exact hA),
            if_pos (show a < 100 by rw [hmin] at hB; exact hB)]
          rw [min_eq_right (by linarith : (100 : ℚ) ≤ a + t.tph)]
        rw [hstep, ih (a + t.tph) (h + t.ht * (100 - a)) (by linarith) h2]
        have hw : wsum a (t :: ts) = t.ht * (100 - a) + wsum (a + t.tph) ts := by
          simp only [wsum]
          rw [max_eq_left (by linarith : (0 : ℚ) ≤ 100 - a),
            min_eq_right (by linarith : 100 - a ≤ t.tph)]
        rw [hsum, hw]
        have e1 : h + (t.ht * (100 - a) + wsum (a + t.tph) ts) =
            h + t.ht * (100 - a) + wsum (a + t.tph) ts := by ring
        have e2 : a + (t.tph + tphSum ts) = a + t.tph + tphSum ts := by ring
        rw [e1, e2]
      · have hmin : min a 100 = 100 := le_antisymm (min_le_right a 100) (not_lt.mp hB)
        have h100 : 100 ≤ a := by
          rcases le_total a 100 with hc | hc
          · rw [min_eq_left hc] at hmin
            linarith
          · exact hc
        have hstep : tophtStep (h, min a 100) t = (h, min a 100) := by
          simp only [tophtStep]
          rw [if_neg hA, if_neg hB]
        rw [hstep]
        have e1 : min a 100 = min (a + t.tph) 100 := by
          rw [hmin, min_eq_right (by linarith : (100 : ℚ) ≤ a + t.tph)]
        rw [e1, ih (a + t.tph) h (by linarith) h2]
        have hw : wsum a (t :: ts) = wsum (a + t.tph) ts := by
          simp only [wsum]
          rw [max_eq_right (by linarith : 100 - a ≤ 0), min_eq_right h1, mul_zero, zero_add]
        rw [hsum, hw]
        have e2 : a + (t.tph + tphSum ts) = a + t.tph + tphSum ts := by ring
        rw [e2]

/-- Claim C6: after `compute_topht`, a stand of zero total density has top
height 0; one with positive density below 100 trees/ha has the
density-weighted mean height of all trees; one with density at least 100
has the cohort-weighted mean height of the tallest records where each
weight is the density still fitting under the 100 threshold (the boundary
record getting only the fraction needed to reach exactly 100), the weights
summing to exactly 100. -/
theorem compute_topht_spec (l : List TreeRec) (hnn : ∀ t ∈ l, 0 ≤ t.tph) :
    (tphSum l = 0 → compute_topht l = 0) ∧
    (0 < tphSum l → tphSum l < 100 → compute_topht l = htTphSum l / tphSum l) ∧
    (100 ≤ tphSum l →
      compute_topht l =
        (List.zipWith (fun t w => t.ht * w) (sortDesc (·.ht) l)
          (cohortWeights 0 (sortDesc (·.ht) l))).sum / 100 ∧
      (cohortWeights 0 (sortDesc (·.ht) l)).sum = 100) := by
  have hperm : List.Perm (sortDesc (·.ht) l) l := List.perm_insertionSort _ l
  have hnnS : ∀ t ∈ sortDesc (·.ht) l, 0 ≤ t.tph := fun t ht => hnn t (hperm.mem_iff.mp ht)
  have htS : tphSum (sortDesc (·.ht) l) = tphSum l := by
    unfold tphSum
    exact (hperm.map (·.tph)).sum_eq
  have hhS : htTphSum (sortDesc (·.ht) l) = htTphSum l := by
    unfold htTphSum
    exact (hperm.map (fun t => t.ht * t.tph)).sum_eq
  have hfold := topht_fold (sortDesc (·.ht) l) 0 0 le_rfl hnnS
  rw [show min (0 : ℚ) 100 = 0 from min_eq_left (by norm_num), zero_add, zero_add] at hfold
  have hct : compute_topht l =
      if 0 < min (tphSum (sortDesc (·.ht) l)) 100 then
        wsum 0 (sortDesc (·.ht) l) / min (tphSum (sortDesc (·.ht) l)) 100
      else 0 := by
    simp only [compute_topht, hfold]
  refine ⟨fun h0 => ?_, fun hpos hlt => ?_, fun hge => ?_⟩
  · rw [hct, htS, h0]
    norm_num
  · have hmin : min (tphSum (sortDesc (·.ht) l)) 100 = tphSum l := by
      rw [htS]
      exact min_eq_left (le_of_lt hlt)
    rw [hct, hmin, if_pos hpos]
    rw [wsum_full (sortDesc (·.ht) l) 0 le_rfl hnnS (by rw [zero_add, htS]; linarith), hhS]
  · have hmin : min (tphSum (sortDesc (·.ht) l)) 100 = 100 := by
      rw [htS]
      exact min_eq_right hge
    constructor
    · rw [hct, hmin, if_pos (by norm_num)]
      rw [wsum_zipWith (sortDesc (·.ht) l) 0]
    · rw [cohortWeights_sum (sortDesc (·.ht) l) 0 hnnS, zero_add, hmin]
      rw [show min (0 : ℚ) 100 = 0 from min_eq_left (by norm_num)]
      ring

/-- The BAL traversal on the concrete tied stand evaluates to `outBal`. -/
theorem balCx_eval : compute_ba_tph_bal lBal = some outBal := by
  norm_num [compute_ba_tph_bal, sortDesc, List.insertionSort, List.orderedInsert, keyGE,
    balFold, balStep, balStep.balStepSw, balInit, lBal, outBal]

/-- Claim C1 witness: in `outBal` the two 10-cm softwoods share `bal = 2`,
the basal area of the single strictly larger record, and share
`bal_sw = 2` within the softwood subset. -/
theorem compute_ba_tph_bal_tie_witness :
    ({ dbh := 10, ht := 0, tph := 0, ba := 3, sw := true, bal := 2, bal_sw := 2, bal_hw := 0 } : TreeRec).bal = gtSum outBal 10 ∧
    ({ dbh := 10, ht := 0, tph := 0, ba := 3, sw := true, bal := 2, bal_sw := 2, bal_hw := 0 } : TreeRec).bal = ({ dbh := 10, ht := 0, tph := 0, ba := 4, sw := true, bal := 2, bal_sw := 2, bal_hw := 0 } : TreeRec).bal ∧
    ({ dbh := 10, ht := 0, tph := 0, ba := 3, sw := true, bal := 2, bal_sw := 2, bal_hw := 0 } : TreeRec).bal_sw = gtSum (outBal.filter (·.sw)) 10 := by
  have hthm := compute_ba_tph_bal_tie lBal outBal balCx_eval
  have hm2 : ({ dbh := 10, ht := 0, tph := 0, ba := 3, sw := true, bal := 2, bal_sw := 2, bal_hw := 0 } : TreeRec) ∈ outBal := by
    simp [outBal]
  have hm3 : ({ dbh := 10, ht := 0, tph := 0, ba := 4, sw := true, bal := 2, bal_sw := 2, bal_hw := 0 } : TreeRec) ∈ outBal := by
    simp [outBal]
  exact ⟨hthm.1 _ hm2, hthm.2.1 _ hm2 _ hm3 rfl, hthm.2.2.1 _ hm2 rfl⟩

/-- Claim C6 witness: the 120-trees/ha stand `l6` takes the 100-cohort
branch with fractional boundary weight. -/
theorem compute_topht_spec_witness :
    compute_topht l6 =
      (List.zipWith (fun t w => t.ht * w) (sortDesc (·.ht) l6)
        (cohortWeights 0 (sortDesc (·.ht) l6))).sum / 100 ∧
    (cohortWeights 0 (sortDesc (·.ht) l6)).sum = 100 :=
  (compute_topht_spec l6 (by decide)).2.2 (by norm_num [tphSum, l6])

/-- Claim C7 witness: the crown bound at the concrete record `gQ`. -/
theorem apply_growth_crown_bound_witness :
    (apply_growth_mortality gQ).hcb ≤ (apply_growth_mortality gQ).ht ∧
    0 ≤ (apply_growth_mortality gQ).cr ∧ (apply_growth_mortality gQ).cr ≤ 1 ∧
    (apply_growth_mortality gQ).cr =
      ((apply_growth_mortality gQ).ht - (apply_growth_mortality gQ).hcb) /
        (apply_growth_mortality gQ).ht :=
  apply_growth_crown_bound gQ (by norm_num [gQ]) (by norm_num [gQ])

/-- Unfolding equation of the collapse sweep on the empty list. -/
theorem unexpandAux_nil : unexpandAux [] = [] := by
  rw [unexpandAux]

/-- Unfolding equation of the collapse sweep on a nonempty list. -/
theorem unexpandAux_cons (t : ScaleRec) (ts : List ScaleRec) :
    unexpandAux (t :: ts) =
      if t.eid ≠ 0 then
        unweigh (scanAcc (weigh t) ts) :: unexpandAux (scanMark (weigh t) ts)
      else
        t :: unexpandAux ts := by
  rw [unexpandAux]

/-- The expansion fold grows the accumulated original and synthetic lists
by exactly the recursive restatement `expandRec`. -/
theorem expand_fold (rng : ℕ → ℚ) (thr : ℚ) :
    ∀ (l : List ScaleRec) (a b : List ScaleRec) (k : ℕ),
      (l.foldl (expandStep rng thr) (a, b, k)).1 = a ++ (expandRec rng thr l k).1 ∧
      (l.foldl (expandStep rng thr) (a, b, k)).2.1 = b ++ (expandRec rng thr l k).2 := by
  intro l
  induction l with
  | nil => intro a b k; simp [expandRec]
  | cons t ts ih =>
    intro a b k
    have hstep : expandStep rng thr (a, b, k) t =
        (a ++ [(expandOne rng thr t k).1], b ++ (expandOne rng thr t k).2.1,
          (expandOne rng thr t k).2.2) := rfl
    rw [List.foldl_cons, hstep]
    rcases ih (a ++ [(expandOne rng thr t k).1]) (b ++ (expandOne rng thr t k).2.1)
      (expandOne rng thr t k).2.2 with ⟨h1, h2⟩
    refine ⟨?_, ?_⟩
    · rw [h1]; simp [expandRec, List.append_assoc]
    · rw [h2]; simp [expandRec, List.append_assoc]

/-- `expand_tree_list` is the processed originals followed by the appended
synthetic records. -/
theorem expand_tree_list_eq (rng : ℕ → ℚ) (thr : ℚ) (l : List ScaleRec) :
    expand_tree_list rng thr l = (expandRec rng thr l 0).1 ++ (expandRec rng thr l 0).2 := by
  have h := expand_fold rng thr l [] [] 0
  show (l.foldl (expandStep rng thr) ([], [], 0)).1 ++
      (l.foldl (expandStep rng thr) ([], [], 0)).2.1 = _
  rw [h.1, h.2]
  simp

/-- Folding a zero-density record into the collapse accumulator is a
no-op: every added quantity is weighted by the density. -/
theorem addInto_dead (a x : ScaleRec) (h : x.tph = 0) : addInto a x = a := by
  cases a
  simp [addInto, h]

/-- Folding any number of zero-density records is a no-op. -/
theorem foldl_addInto_dead : ∀ (m : List ScaleRec) (a : ScaleRec),
    (∀ x ∈ m, x.tph = 0) → m.foldl addInto a = a := by
  intro m
  induction m with
  | nil => intro a _; rfl
  | cons x m ih =>
    intro a h
    rw [List.foldl_cons, addInto_dead a x (h x (by simp))]
    exact ih a (fun y hy => h y (by simp [hy]))

/-- Marking an already-consumed record is the identity. -/
theorem consume_dead (x : ScaleRec) (h1 : x.eid = -1) (h2 : x.tph = 0) : consume x = x := by
  cases x
  simp_all [consume]

/-- The consume scan distributes over append. -/
theorem scanMark_append (a : ScaleRec) (l1 l2 : List ScaleRec) :
    scanMark a (l1 ++ l2) = scanMark a l1 ++ scanMark a l2 := by
  simp [scanMark]

/-- The consume scan leaves a list with no group members untouched. -/
theorem scanMark_of_none (a : ScaleRec) (l : List ScaleRec)
    (h : ∀ x ∈ l, ¬ sameGroup a x = true) : scanMark a l = l := by
  unfold scanMark
  have hc : ∀ x ∈ l, (if sameGroup a x then consume x else x) = id x := by
    intro x hx
    rw [if_neg (h x hx)]
    rfl
  rw [List.map_congr_left hc, List.map_id]

/-- The consume scan consumes a list made entirely of group members. -/
theorem scanMark_of_all (a : ScaleRec) (l : List ScaleRec)
    (h : ∀ x ∈ l, sameGroup a x = true) : scanMark a l = l.map consume := by
  unfold scanMark
  exact List.map_congr_left (fun x hx => if_pos (h x hx))

/-- The consume scan leaves already-consumed records untouched whether or
not they match. -/
theorem scanMark_of_dead (a : ScaleRec) (l : List ScaleRec)
    (h : ∀ x ∈ l, x.eid = -1 ∧ x.tph = 0) : scanMark a l = l := by
  unfold scanMark
  have hc : ∀ x ∈ l, (if sameGroup a x then consume x else x) = id x := by
    intro x hx
    by_cases hg : sameGroup a x = true
    · rw [if_pos hg, consume_dead x (h x hx).1 (h x hx).2]
      rfl
    · rw [if_neg hg]
      rfl
  rw [List.map_congr_left hc, List.map_id]

/-- The consume scan preserves zero density everywhere. -/
theorem scanMark_dead_tph (a : ScaleRec) (l : List ScaleRec)
    (h : ∀ y ∈ l, y.tph = 0) : ∀ x ∈ scanMark a l, x.tph = 0 := by
  intro x hx
  rcases List.mem_map.mp hx with ⟨y, hy, rfl⟩
  by_cases hg : sameGroup a y = true
  · rw [if_pos hg]
    rfl
  · rw [if_neg hg]
    exact h y hy

/-- The collapse sweep of a list of zero-density records produces only
zero-density records, all of which the final erase removes. -/
theorem unexpandAux_dead : ∀ (n : ℕ) (D : List ScaleRec), D.length = n →
    (∀ c ∈ D, c.tph = 0) →
    (unexpandAux D).filter (fun t => t.tph ≠ 0) = [] := by
  intro n
  induction n with
  | zero =>
    intro D hlen _
    rw [List.length_eq_zero.mp hlen, unexpandAux_nil]
    rfl
  | succ n ih =>
    intro D hlen hdead
    cases D with
    | nil => simp at hlen
    | cons c D =>
      have hc0 : c.tph = 0 := hdead c (by simp)
      have hD0 : ∀ y ∈ D, y.tph = 0 := fun y hy => hdead y (by simp [hy])
      have hlen' : D.length = n := by simpa using hlen
      rw [unexpandAux_cons]
      by_cases hc : c.eid ≠ 0
      · rw [if_pos hc]
        have hacc : scanAcc (weigh c) D = weigh c := by
          unfold scanAcc
          exact foldl_addInto_dead _ _ (fun x hx => hD0 x (List.mem_of_mem_filter hx))
        have htph0 : (unweigh (scanAcc (weigh c) D)).tph = 0 := by
          rw [hacc]
          unfold unweigh
          rw [if_neg (by simpa [weigh] using (by rw [hc0]; exact lt_irrefl 0 : ¬ 0 < c.tph))]
          simpa [weigh] using hc0
        rw [List.filter_cons_of_neg (by simp [htph0])]
        exact ih (scanMark (weigh c) D) (by simp [scanMark, hlen'])
          (scanMark_dead_tph _ _ hD0)
      · rw [if_neg hc]
        rw [List.filter_cons_of_neg (by simp [hc0])]
        exact ih D hlen' hD0

/-- Projections of the density-weighting seed: the match keys and the
density are untouched, the dimensions are scaled. -/
theorem weigh_plot (a : ScaleRec) : (weigh a).plot = a.plot := rfl

/-- The weighting seed keeps the tree id. -/
theorem weigh_tid (a : ScaleRec) : (weigh a).tid = a.tid := rfl

/-- The weighting seed keeps the expand id. -/
theorem weigh_eid (a : ScaleRec) : (weigh a).eid = a.eid := rfl

/-- The weighting seed keeps the density. -/
theorem weigh_tph (a : ScaleRec) : (weigh a).tph = a.tph := rfl

/-- The weighting seed scales the diameter by the density. -/
theorem weigh_dbh (a : ScaleRec) : (weigh a).dbh = a.dbh * a.tph := rfl

/-- The weighting seed scales the height by the density. -/
theorem weigh_ht (a : ScaleRec) : (weigh a).ht = a.ht * a.tph := rfl

/-- The weighting seed scales the crown base by the density. -/
theorem weigh_hcb (a : ScaleRec) : (weigh a).hcb = a.hcb * a.tph := rfl

/-- The weighting seed scales the crown ratio by the density. -/
theorem weigh_cr (a : ScaleRec) : (weigh a).cr = a.cr * a.tph := rfl

/-- The group test only reads the accumulator's match keys, which
weighting does not touch. -/
theorem sameGroup_weigh (a x : ScaleRec) : sameGroup (weigh a) x = sameGroup a x := rfl

/-- A record differing in plot or tree id is never a group member. -/
theorem sameGroup_false_of_ne (a x : ScaleRec)
    (h : x.plot ≠ a.plot ∨ x.tid ≠ a.tid) : sameGroup a x = false := by
  rcases h with h | h <;> simp [sameGroup, h]

/-- The group test succeeds on a matching expanded record. -/
theorem sameGroup_true (a x : ScaleRec) (h1 : x.plot = a.plot) (h2 : x.tid = a.tid)
    (h3 : x.eid ≠ 0) (h4 : x.eid ≠ a.eid) : sameGroup a x = true := by
  simp [sameGroup, h1, h2, h3, h4]

/-- Field characterization of one synthetic record: identity, crown ratio,
crown base copied, expand id and density as requested, diameter and height
within the random-draw bound. -/
theorem mkSynth_fields (rng : ℕ → ℚ) (t : ScaleRec) (k : ℕ) (eid : ℤ) (w e : ℚ)
    (hrng : ∀ n, |rng n| ≤ e) :
    (mkSynth rng t k eid w).1.plot = t.plot ∧
    (mkSynth rng t k eid w).1.tid = t.tid ∧
    (mkSynth rng t k eid w).1.eid = eid ∧
    (mkSynth rng t k eid w).1.tph = w ∧
    (mkSynth rng t k eid w).1.cr = t.cr ∧
    (mkSynth rng t k eid w).1.hcb = t.hcb ∧
    |(mkSynth rng t k eid w).1.dbh - t.dbh| ≤ e ∧
    |(mkSynth rng t k eid w).1.ht - t.ht| ≤ e := by
  simp only [mkSynth, recomputeBa]
  split_ifs with hht
  · refine ⟨rfl, rfl, rfl, rfl, rfl, rfl, ?_, ?_⟩
    · have harg : t.dbh + rng k - t.dbh = rng k := by ring
      simpa [harg] using hrng k
    · have harg : t.ht + rng (k + 1) - t.ht = rng (k + 1) := by ring
      simpa [harg] using hrng (k + 1)
  · refine ⟨rfl, rfl, rfl, rfl, rfl, rfl, ?_, ?_⟩
    · have harg : t.dbh + rng k - t.dbh = rng k := by ring
      simpa [harg] using hrng k
    · simpa using le_trans (abs_nonneg (rng 0)) (hrng 0)

/-- The synthetic loop produces exactly the requested number of records. -/
theorem synthLoop_length (rng : ℕ → ℚ) (thr : ℚ) (t : ScaleRec) :
    ∀ (m : ℕ) (j : ℤ) (k : ℕ), (synthLoop rng thr t j k m).1.length = m := by
  intro m
  induction m with
  | zero => intro j k; rfl
  | succ m ih =>
    intro j k
    simp only [synthLoop, List.length_cons, ih]

/-- Every record of the synthetic loop copies the source's identity, crown
ratio and crown base, carries the threshold density, has its diameter and
height within the random-draw bound, and an expand id in the consecutive
range starting above `j`. -/
theorem synthLoop_mem (rng : ℕ → ℚ) (thr e : ℚ) (t : ScaleRec)
    (hrng : ∀ n, |rng n| ≤ e) :
    ∀ (m : ℕ) (j : ℤ) (k : ℕ), ∀ x ∈ (synthLoop rng thr t j k m).1,
      x.plot = t.plot ∧ x.tid = t.tid ∧ x.cr = t.cr ∧ x.hcb = t.hcb ∧ x.tph = thr ∧
      |x.dbh - t.dbh| ≤ e ∧ |x.ht - t.ht| ≤ e ∧ j + 1 ≤ x.eid ∧ x.eid ≤ j + m := by
  intro m
  induction m with
  | zero => intro j k x hx; simp [synthLoop] at hx
  | succ m ih =>
    intro j k x hx
    simp only [synthLoop, List.mem_cons] at hx
    rcases hx with rfl | hx
    · obtain ⟨h1, h2, h3, h4, h5, h6, h7, h8⟩ :=
        mkSynth_fields rng t k (j + 1) thr e hrng
      refine ⟨h1, h2, h5, h6, h4, h7, h8, by rw [h3], by rw [h3]; push_cast; omega⟩
    · obtain ⟨h1, h2, h3, h4, h5, h6, h7, h8, h9⟩ := ih (j + 1) _ x hx
      refine ⟨h1, h2, h3, h4, h5, h6, h7, by omega, by push_cast at h9 ⊢; omega⟩

/-- Summed density of a constant-density list. -/
theorem map_tph_sum_const (thr : ℚ) : ∀ (P : List ScaleRec),
    (∀ x ∈ P, x.tph = thr) →
    (P.map (fun x => x.tph)).sum = P.length * thr := by
  intro P
  induction P with
  | nil => intro _; simp
  | cons x P ih =>
    intro h
    simp only [List.map_cons, List.sum_cons, List.length_cons]
    rw [h x (by simp), ih (fun y hy => h y (by simp [hy]))]
    push_cast
    ring

/-- A density-weighted sum of a quantity that is constant over the list
factors through the summed density. -/
theorem weighted_const (c : ℚ) (f : ScaleRec → ℚ) : ∀ (P : List ScaleRec),
    (∀ x ∈ P, f x = c) →
    (P.map (fun x => f x * x.tph)).sum = c * (P.map (fun x => x.tph)).sum := by
  intro P
  induction P with
  | nil => intro _; simp
  | cons x P ih =>
    intro h
    simp only [List.map_cons, List.sum_cons]
    rw [h x (by simp), ih (fun y hy => h y (by simp [hy]))]
    ring

/-- A density-weighted sum of a quantity within `e` of `c` everywhere is
within `e` times the summed density of `c` times the summed density. -/
theorem weighted_dev (c e : ℚ) (f : ScaleRec → ℚ) : ∀ (P : List ScaleRec),
    (∀ x ∈ P, |f x - c| ≤ e ∧ 0 ≤ x.tph) →
    |(P.map (fun x => f x * x.tph)).sum - c * (P.map (fun x => x.tph)).sum| ≤
      e * (P.map (fun x => x.tph)).sum := by
  intro P
  induction P with
  | nil => intro _; simp
  | cons x P ih =>
    intro h
    obtain ⟨hx, hw⟩ := h x (by simp)
    have hP := ih (fun y hy => h y (by simp [hy]))
    simp only [List.map_cons, List.sum_cons]
    have harg : f x * x.tph + (P.map (fun x => f x * x.tph)).sum -
        c * (x.tph + (P.map (fun x => x.tph)).sum) =
        (f x - c) * x.tph + ((P.map (fun x => f x * x.tph)).sum -
          c * (P.map (fun x => x.tph)).sum) := by ring
    rw [harg, mul_add]
    refine le_trans (abs_add _ _) (add_le_add ?_ hP)
    rw [abs_mul, abs_of_nonneg hw]
    exact mul_le_mul_of_nonneg_right hx hw

/-- Fields of the collapse accumulator after folding a list of group
members: the match keys and basal area of the seed survive, the density
accumulates, and every dimension accumulates density-weighted. -/
theorem foldl_addInto_fields : ∀ (P : List ScaleRec) (a : ScaleRec),
    (P.foldl addInto a).plot = a.plot ∧
    (P.foldl addInto a).tid = a.tid ∧
    (P.foldl addInto a).eid = a.eid ∧
    (P.foldl addInto a).tph = a.tph + (P.map (fun x => x.tph)).sum ∧
    (P.foldl addInto a).dbh = a.dbh + (P.map (fun x => x.dbh * x.tph)).sum ∧
    (P.foldl addInto a).ht = a.ht + (P.map (fun x => x.ht * x.tph)).sum ∧
    (P.foldl addInto a).hcb = a.hcb + (P.map (fun x => x.hcb * x.tph)).sum ∧
    (P.foldl addInto a).cr = a.cr + (P.map (fun x => x.cr * x.tph)).sum := by
  intro P
  induction P with
  | nil => intro a; simp
  | cons x P ih =>
    intro a
    obtain ⟨h1, h2, h3, h4, h5, h6, h7, h8⟩ := ih (addInto a x)
    rw [List.foldl_cons]
    simp only [List.map_cons, List.sum_cons]
    refine ⟨by rw [h1]; rfl, by rw [h2]; rfl, by rw [h3]; rfl, ?_, ?_, ?_, ?_, ?_⟩
    · rw [h4]; simp only [addInto]; ring
    · rw [h5]; simp only [addInto]; ring
    · rw [h6]; simp only [addInto]; ring
    · rw [h7]; simp only [addInto]; ring
    · rw [h8]; simp only [addInto]; ring

/-- A record at or below the threshold passes through expansion
unchanged, producing no synthetic records and consuming no draws. -/
theorem expandOne_light (rng : ℕ → ℚ) (thr : ℚ) (t : ScaleRec) (k : ℕ)
    (h : ¬ thr < t.tph) : expandOne rng thr t k = (t, [], k) := by
  simp only [expandOne]
  rw [if_neg h]

/-- Full characterization of expanding one over-threshold record: the
rewritten original keeps every dimension, takes the threshold density and
a nonzero expand id; every synthetic record copies the identity, crown
ratio and crown base, has nonzero expand id distinct from the original's,
non-negative density, and diameter and height within the draw bound; and
the synthetic densities sum to exactly the density in excess of the
threshold. -/
theorem expandOne_heavy (rng : ℕ → ℚ) (thr e : ℚ) (t : ScaleRec) (k : ℕ)
    (hthr : 0 < thr) (hsp : thr < t.tph) (hrng : ∀ n, |rng n| ≤ e)
    (o : ScaleRec) (S : List ScaleRec) (k2 : ℕ)
    (hE : expandOne rng thr t k = (o, S, k2)) :
    o.plot = t.plot ∧ o.tid = t.tid ∧ o.eid ≠ 0 ∧ o.dbh = t.dbh ∧ o.ht = t.ht ∧
    o.hcb = t.hcb ∧ o.cr = t.cr ∧ o.tph = thr ∧
    (∀ x ∈ S, x.plot = t.plot ∧ x.tid = t.tid ∧ x.eid ≠ 0 ∧ x.eid ≠ o.eid ∧
      x.cr = t.cr ∧ x.hcb = t.hcb ∧ 0 ≤ x.tph ∧
      |x.dbh - t.dbh| ≤ e ∧ |x.ht - t.ht| ≤ e) ∧
    (S.map (fun x => x.tph)).sum = t.tph - thr := by
  have hF1 : 1 ≤ ⌊t.tph / thr⌋ := by
    apply Int.le_floor.mpr
    rw [Int.cast_one, le_div_iff₀ hthr, one_mul]
    exact le_of_lt hsp
  have hcast : (((⌊t.tph / thr⌋ - 1).toNat : ℤ)) = ⌊t.tph / thr⌋ - 1 :=
    Int.toNat_of_nonneg (by omega)
  have hcastQ : (((⌊t.tph / thr⌋ - 1).toNat : ℕ) : ℚ) = ((⌊t.tph / thr⌋ : ℤ) : ℚ) - 1 := by
    exact_mod_cast hcast
  have hcum_le : thr * ((((⌊t.tph / thr⌋ - 1).toNat : ℕ) : ℚ) + 1) ≤ t.tph := by
    rw [hcastQ]
    have h1 : ((⌊t.tph / thr⌋ : ℤ) : ℚ) ≤ t.tph / thr := Int.floor_le _
    calc thr * (((⌊t.tph / thr⌋ : ℤ) : ℚ) - 1 + 1)
        = thr * ((⌊t.tph / thr⌋ : ℤ) : ℚ) := by ring
      _ ≤ thr * (t.tph / thr) := mul_le_mul_of_nonneg_left h1 (le_of_lt hthr)
      _ = t.tph := by field_simp
  simp only [expandOne] at hE
  rw [if_pos hsp] at hE
  by_cases hrem : thr * ((((⌊t.tph / thr⌋ - 1).toNat : ℕ) : ℚ) + 1) < t.tph
  · rw [if_pos hrem] at hE
    rw [Prod.mk.injEq, Prod.mk.injEq] at hE
    obtain ⟨ho, hS, _⟩ := hE
    subst ho
    subst hS
    obtain ⟨m1, m2, m3, m4, m5, m6, m7, m8⟩ :=
      mkSynth_fields rng t (synthLoop rng thr t 0 k ((⌊t.tph / thr⌋ - 1).toNat)).2
        (((⌊t.tph / thr⌋ - 1).toNat : ℕ) + 1)
        (t.tph - thr * ((((⌊t.tph / thr⌋ - 1).toNat : ℕ) : ℚ) + 1)) e hrng
    refine ⟨rfl, rfl, by show ((((⌊t.tph / thr⌋ - 1).toNat : ℕ) : ℤ) + 2) ≠ 0; omega,
      rfl, rfl, rfl, rfl, rfl, ?_, ?_⟩
    · intro x hx
      rcases List.mem_append.mp hx with hx | hx
      · obtain ⟨h1, h2, h3, h4, h5, h6, h7, h8, h9⟩ :=
          synthLoop_mem rng thr e t hrng ((⌊t.tph / thr⌋ - 1).toNat) 0 k x hx
        refine ⟨h1, h2, by omega, ?_, h3, h4, by rw [h5]; exact le_of_lt hthr, h6, h7⟩
        show x.eid ≠ (((⌊t.tph / thr⌋ - 1).toNat : ℕ) : ℤ) + 2
        omega
      · rw [List.mem_singleton] at hx
        subst hx
        refine ⟨m1, m2, by rw [m3]; omega, ?_, m5, m6, ?_, m7, m8⟩
        · rw [m3]
          show ¬ _ = (((⌊t.tph / thr⌋ - 1).toNat : ℕ) : ℤ) + 2
          omega
        · rw [m4]
          exact le_of_lt (sub_pos.mpr hrem)
    · rw [List.map_append, List.sum_append]
      have hsloop : ((synthLoop rng thr t 0 k ((⌊t.tph / thr⌋ - 1).toNat)).1.map
          (fun x => x.tph)).sum = (((⌊t.tph / thr⌋ - 1).toNat : ℕ) : ℚ) * thr := by
        rw [map_tph_sum_const thr _ (fun x hx =>
          (synthLoop_mem rng thr e t hrng ((⌊t.tph / thr⌋ - 1).toNat) 0 k x hx).2.2.2.2.1)]
        rw [synthLoop_length]
      rw [hsloop, List.map_singleton, List.sum_singleton, m4]
      ring
  · rw [if_neg hrem] at hE
    rw [Prod.mk.injEq, Prod.mk.injEq] at hE
    obtain ⟨ho, hS, _⟩ := hE
    subst ho
    subst hS
    have hc : thr * ((((⌊t.tph / thr⌋ - 1).toNat : ℕ) : ℚ) + 1) = t.tph :=
      le_antisymm hcum_le (not_lt.mp hrem)
    refine ⟨rfl, rfl, by show ((((⌊t.tph / thr⌋ - 1).toNat : ℕ) : ℤ) + 1) ≠ 0; omega,
      rfl, rfl, rfl, rfl, rfl, ?_, ?_⟩
    · intro x hx
      obtain ⟨h1, h2, h3, h4, h5, h6, h7, h8, h9⟩ :=
        synthLoop_mem rng thr e t hrng ((⌊t.tph / thr⌋ - 1).toNat) 0 k x hx
      refine ⟨h1, h2, by omega, ?_, h3, h4, by rw [h5]; exact le_of_lt hthr, h6, h7⟩
      show x.eid ≠ (((⌊t.tph / thr⌋ - 1).toNat : ℕ) : ℤ) + 1
      omega
    · rw [map_tph_sum_const thr _ (fun x hx =>
        (synthLoop_mem rng thr e t hrng ((⌊t.tph / thr⌋ - 1).toNat) 0 k x hx).2.2.2.2.1)]
      rw [synthLoop_length]
      linarith [hc]

/-- Every record the expansion emits inherits plot and tree id from some
record of the input list. -/
theorem expandRec_prov (rng : ℕ → ℚ) (thr e : ℚ) (hthr : 0 < thr)
    (hrng : ∀ n, |rng n| ≤ e) :
    ∀ (ts : List ScaleRec) (k : ℕ),
      ∀ x ∈ (expandRec rng thr ts k).1 ++ (expandRec rng thr ts k).2,
        ∃ u ∈ ts, x.plot = u.plot ∧ x.tid = u.tid := by
  intro ts
  induction ts with
  | nil => intro k x hx; simp [expandRec] at hx
  | cons t ts ih =>
    intro k x hx
    by_cases hsp : thr < t.tph
    · rcases hEq : expandOne rng thr t k with ⟨o, S, k2⟩
      obtain ⟨hp, hq, _, _, _, _, _, _, hsyn, _⟩ :=
        expandOne_heavy rng thr e t k hthr hsp hrng o S k2 hEq
      simp only [expandRec, hEq, List.mem_append, List.mem_cons] at hx
      rcases hx with (rfl | hx) | (hx | hx)
      · exact ⟨t, by simp, hp, hq⟩
      · obtain ⟨u, hu, h1, h2⟩ := ih k2 x (List.mem_append_left _ hx)
        exact ⟨u, by simp [hu], h1, h2⟩
      · exact ⟨t, by simp, (hsyn x hx).1, (hsyn x hx).2.1⟩
      · obtain ⟨u, hu, h1, h2⟩ := ih k2 x (List.mem_append_right _ hx)
        exact ⟨u, by simp [hu], h1, h2⟩
    · simp only [expandRec, expandOne_light rng thr t k hsp, List.mem_append,
        List.mem_cons] at hx
      rcases hx with (rfl | hx) | (hx | hx)
      · exact ⟨x, by simp, rfl, rfl⟩
      · obtain ⟨u, hu, h1, h2⟩ := ih k x (List.mem_append_left _ hx)
        exact ⟨u, by simp [hu], h1, h2⟩
      · simp at hx
      · obtain ⟨u, hu, h1, h2⟩ := ih k x (List.mem_append_right _ hx)
        exact ⟨u, by simp [hu], h1, h2⟩

/-- Fields of the collapse average when the accumulated density is
positive: every dimension is divided by the density, the expand id is
reset, the match keys and density survive. -/
theorem unweigh_fields (a : ScaleRec) (h : 0 < a.tph) :
    (unweigh a).plot = a.plot ∧ (unweigh a).tid = a.tid ∧ (unweigh a).eid = 0 ∧
    (unweigh a).tph = a.tph ∧ (unweigh a).dbh = a.dbh / a.tph ∧
    (unweigh a).ht = a.ht / a.tph ∧ (unweigh a).hcb = a.hcb / a.tph ∧
    (unweigh a).cr = a.cr / a.tph := by
  unfold unweigh
  rw [if_pos h]
  exact ⟨rfl, rfl, rfl, rfl, rfl, rfl, rfl, rfl⟩

/-- Master invariant of the collapse sweep over an expanded list: the
processed originals, a region of already-consumed records, and the
pending synthetic blocks collapse back to the original records up to the
round-trip relation, provided the originals carry distinct plot/tree
identities, zero expand ids and positive densities. -/
theorem unexpand_expandRec (rng : ℕ → ℚ) (thr e : ℚ) (hthr : 0 < thr)
    (hrng : ∀ n, |rng n| ≤ e) :
    ∀ (l : List ScaleRec) (k : ℕ) (D : List ScaleRec),
      (∀ c ∈ D, c.eid = -1 ∧ c.tph = 0) →
      l.Pairwise (fun a b => a.plot ≠ b.plot ∨ a.tid ≠ b.tid) →
      (∀ t ∈ l, t.eid = 0 ∧ 0 < t.tph) →
      List.Forall₂ (roundTripRel e) l
        ((unexpandAux ((expandRec rng thr l k).1 ++
          (D ++ (expandRec rng thr l k).2))).filter (fun t => t.tph ≠ 0)) := by
  have he0 : (0:ℚ) ≤ e := le_trans (abs_nonneg (rng 0)) (hrng 0)
  intro l
  induction l with
  | nil =>
    intro k D hD _ _
    have hshape : (expandRec rng thr [] k).1 ++ (D ++ (expandRec rng thr [] k).2) = D := by
      simp [expandRec]
    rw [hshape, unexpandAux_dead D.length D rfl (fun c hc => (hD c hc).2)]
    exact List.Forall₂.nil
  | cons t ts ih =>
    intro k D hD hpair hrec
    obtain ⟨ht0, htph⟩ := hrec t (by simp)
    have hpt : ∀ u ∈ ts, t.plot ≠ u.plot ∨ t.tid ≠ u.tid := (List.pairwise_cons.mp hpair).1
    have hpair2 := (List.pairwise_cons.mp hpair).2
    have hrec2 : ∀ u ∈ ts, u.eid = 0 ∧ 0 < u.tph := fun u hu => hrec u (by simp [hu])
    by_cases hsp : thr < t.tph
    · rcases hEq : expandOne rng thr t k with ⟨o, S, k2⟩
      obtain ⟨hp, hq, ho0, hodbh, hoht, hohcb, hocr, hotph, hsyn, hsum⟩ :=
        expandOne_heavy rng thr e t k hthr hsp hrng o S k2 hEq
      have hl1 : (expandRec rng thr (t :: ts) k).1 = o :: (expandRec rng thr ts k2).1 := by
        simp [expandRec, hEq]
      have hl2 : (expandRec rng thr (t :: ts) k).2 = S ++ (expandRec rng thr ts k2).2 := by
        simp [expandRec, hEq]
      rw [hl1, hl2, List.cons_append, unexpandAux_cons, if_pos ho0]
      have hfar : ∀ x ∈ (expandRec rng thr ts k2).1 ++ (expandRec rng thr ts k2).2,
          sameGroup (weigh o) x = false := by
        intro x hx
        obtain ⟨u, hu, h1, h2⟩ := expandRec_prov rng thr e hthr hrng ts k2 x hx
        rcases hpt u hu with h | h
        · refine sameGroup_false_of_ne _ _ (Or.inl ?_)
          rw [h1, weigh_plot, hp]
          exact Ne.symm h
        · refine sameGroup_false_of_ne _ _ (Or.inr ?_)
          rw [h2, weigh_tid, hq]
          exact Ne.symm h
      have hnoO : ∀ x ∈ (expandRec rng thr ts k2).1, sameGroup (weigh o) x = false :=
        fun x hx => hfar x (List.mem_append_left _ hx)
      have hnoB : ∀ x ∈ (expandRec rng thr ts k2).2, sameGroup (weigh o) x = false :=
        fun x hx => hfar x (List.mem_append_right _ hx)
      have hyesS : ∀ x ∈ S, sameGroup (weigh o) x = true := by
        intro x hx
        obtain ⟨h1, h2, h3, h4, _⟩ := hsyn x hx
        refine sameGroup_true _ _ ?_ ?_ h3 ?_
        · rw [weigh_plot, hp]; exact h1
        · rw [weigh_tid, hq]; exact h2
        · rw [weigh_eid]; exact h4
      have hfilter : ((expandRec rng thr ts k2).1 ++
          (D ++ (S ++ (expandRec rng thr ts k2).2))).filter (sameGroup (weigh o)) =
          D.filter (sameGroup (weigh o)) ++ S := by
        rw [List.filter_append, List.filter_append, List.filter_append]
        rw [List.filter_eq_nil_iff.mpr
              (fun x (hx : x ∈ (expandRec rng thr ts k2).1) => by simp [hnoO x hx]),
            List.filter_eq_self.mpr hyesS,
            List.filter_eq_nil_iff.mpr
              (fun x (hx : x ∈ (expandRec rng thr ts k2).2) => by simp [hnoB x hx])]
        simp
      have hacc : scanAcc (weigh o) ((expandRec rng thr ts k2).1 ++
          (D ++ (S ++ (expandRec rng thr ts k2).2))) = S.foldl addInto (weigh o) := by
        unfold scanAcc
        rw [hfilter, List.foldl_append,
          foldl_addInto_dead _ _ (fun x hx => (hD x (List.mem_of_mem_filter hx)).2)]
      obtain ⟨f1, f2, f3, f4, f5, f6, f7, f8⟩ := foldl_addInto_fields S (weigh o)
      have hAtph : (S.foldl addInto (weigh o)).tph = t.tph := by
        rw [f4, weigh_tph, hotph, hsum]; ring
      have hScr : (S.map (fun x => x.cr * x.tph)).sum =
          t.cr * (S.map (fun x => x.tph)).sum :=
        weighted_const t.cr (fun x => x.cr) S (fun x hx => (hsyn x hx).2.2.2.2.1)
      have hAcr : (S.foldl addInto (weigh o)).cr = t.cr * t.tph := by
        rw [f8, weigh_cr, hocr, hotph, hScr, hsum]; ring
      have hShcb : (S.map (fun x => x.hcb * x.tph)).sum =
          t.hcb * (S.map (fun x => x.tph)).sum :=
        weighted_const t.hcb (fun x => x.hcb) S (fun x hx => (hsyn x hx).2.2.2.2.2.1)
      have hAhcb : (S.foldl addInto (weigh o)).hcb = t.hcb * t.tph := by
        rw [f7, weigh_hcb, hohcb, hotph, hShcb, hsum]; ring
      have hdevD := weighted_dev t.dbh e (fun x => x.dbh) S
        (fun x hx => ⟨(hsyn x hx).2.2.2.2.2.2.2.1, (hsyn x hx).2.2.2.2.2.2.1⟩)
      rw [hsum] at hdevD
      have hAdbh : |(S.foldl addInto (weigh o)).dbh - t.dbh * t.tph| ≤
          e * (t.tph - thr) := by
        rw [f5, weigh_dbh, hodbh, hotph]
        have harg : ∀ X : ℚ, t.dbh * thr + X - t.dbh * t.tph =
            X - t.dbh * (t.tph - thr) := by intro X; ring
        rw [harg]
        exact hdevD
      have hdevH := weighted_dev t.ht e (fun x => x.ht) S
        (fun x hx => ⟨(hsyn x hx).2.2.2.2.2.2.2.2, (hsyn x hx).2.2.2.2.2.2.1⟩)
      rw [hsum] at hdevH
      have hAht : |(S.foldl addInto (weigh o)).ht - t.ht * t.tph| ≤
          e * (t.tph - thr) := by
        rw [f6, weigh_ht, hoht, hotph]
        have harg : ∀ X : ℚ, t.ht * thr + X - t.ht * t.tph =
            X - t.ht * (t.tph - thr) := by intro X; ring
        rw [harg]
        exact hdevH
      have hposA : 0 < (S.foldl addInto (weigh o)).tph := by rw [hAtph]; exact htph
      obtain ⟨u1, u2, u3, u4, u5, u6, u7, u8⟩ :=
        unweigh_fields (S.foldl addInto (weigh o)) hposA
      have hnn : 0 ≤ e * thr := mul_nonneg he0 (le_of_lt hthr)
      have hexp : e * (t.tph - thr) = e * t.tph - e * thr := by ring
      have hrel : roundTripRel e t (unweigh (S.foldl addInto (weigh o))) := by
        refine ⟨?_, ?_, u3, ?_, ?_, ?_, ?_, ?_⟩
        · rw [u1, f1, weigh_plot, hp]
        · rw [u2, f2, weigh_tid, hq]
        · rw [u4, hAtph]
        · rw [u8, hAcr, hAtph]
          exact mul_div_cancel_right₀ t.cr htph.ne'
        · rw [u7, hAhcb, hAtph]
          exact mul_div_cancel_right₀ t.hcb htph.ne'
        · rw [u5, hAtph]
          have harg : (S.foldl addInto (weigh o)).dbh / t.tph - t.dbh =
              ((S.foldl addInto (weigh o)).dbh - t.dbh * t.tph) / t.tph := by
            field_simp
            ring
          rw [harg, abs_div, abs_of_pos htph, div_le_iff₀ htph]
          linarith [hAdbh]
        · rw [u6, hAtph]
          have harg : (S.foldl addInto (weigh o)).ht / t.tph - t.ht =
              ((S.foldl addInto (weigh o)).ht - t.ht * t.tph) / t.tph := by
            field_simp
            ring
          rw [harg, abs_div, abs_of_pos htph, div_le_iff₀ htph]
          linarith [hAht]
      have hmark : scanMark (weigh o) ((expandRec rng thr ts k2).1 ++
          (D ++ (S ++ (expandRec rng thr ts k2).2))) =
          (expandRec rng thr ts k2).1 ++
            ((D ++ S.map consume) ++ (expandRec rng thr ts k2).2) := by
        rw [scanMark_append, scanMark_append, scanMark_append]
        rw [scanMark_of_none _ _ (fun x hx => by simp [hnoO x hx]),
            scanMark_of_dead _ _ hD,
            scanMark_of_all _ _ hyesS,
            scanMark_of_none _ _ (fun x hx => by simp [hnoB x hx])]
        simp [List.append_assoc]
      rw [hacc, hmark]
      rw [List.filter_cons_of_pos (by simp [u4, hAtph, htph.ne'])]
      refine List.Forall₂.cons hrel (ih k2 (D ++ S.map consume) ?_ hpair2 hrec2)
      intro c hc
      rcases List.mem_append.mp hc with h | h
      · exact hD c h
      · rcases List.mem_map.mp h with ⟨y, _, rfl⟩
        exact ⟨rfl, rfl⟩
    · have hl1 : (expandRec rng thr (t :: ts) k).1 = t :: (expandRec rng thr ts k).1 := by
        simp [expandRec, expandOne_light rng thr t k hsp]
      have hl2 : (expandRec rng thr (t :: ts) k).2 = (expandRec rng thr ts k).2 := by
        simp [expandRec, expandOne_light rng thr t k hsp]
      rw [hl1, hl2, List.cons_append, unexpandAux_cons, if_neg (by simp [ht0])]
      rw [List.filter_cons_of_pos (by simp [htph.ne'])]
      exact List.Forall₂.cons
        ⟨rfl, rfl, ht0, rfl, rfl, rfl, by simpa using he0, by simpa using he0⟩
        (ih k D hD hpair2 hrec2)

/-- Claim C5 counterexample: with a jitter stream the C++
`uniform_real_distribution(-0.005, 0.005)` can produce (constantly 0.004),
expanding the single 80-trees/ha record `c5rec` at threshold 50 and
immediately collapsing it returns the diameter shifted by 3/2000 = 0.0015
— the density-weighted share of the jitter — so the round trip does not
reproduce the diameter within floating-point tolerance, only within the
jitter half-width. -/
theorem expand_collapse_dbh_shift :
    (∀ n, |c5rng n| ≤ 1/200) ∧
    (unexpand_tree_list (expand_tree_list c5rng 50 [c5rec])).map (fun t => t.dbh) =
      [c5rec.dbh + 3/2000] ∧
    c5rec.dbh + 3/2000 ≠ c5rec.dbh := by
  refine ⟨fun n => ?_, ?_, by norm_num [c5rec, recomputeBa]⟩
  · rw [show c5rng n = 1/250 from rfl, abs_of_pos (by norm_num)]
    norm_num
  · have hE1 : expandOne c5rng 50 c5rec 0 = (c5O, [c5R], 2) := by
      have hfl : ⌊c5rec.tph / (50:ℚ)⌋ = 1 := by
        rw [show c5rec.tph = 80 from rfl, Int.floor_eq_iff]
        norm_num
      simp only [expandOne]
      rw [if_pos (show (50:ℚ) < c5rec.tph by norm_num [c5rec, recomputeBa])]
      rw [hfl]
      rw [show ((1:ℤ) - 1).toNat = 0 from rfl]
      rw [show synthLoop c5rng 50 c5rec 0 0 0 = ([], 0) from rfl]
      norm_num [mkSynth, recomputeBa, c5rec, c5rng, c5O, c5R, baK]
    have hE : expand_tree_list c5rng 50 [c5rec] = [c5O, c5R] := by
      rw [expand_tree_list_eq]
      simp [expandRec, hE1]
    rw [hE]
    show ((unexpandAux [c5O, c5R]).filter (fun t => t.tph ≠ 0)).map (fun t => t.dbh) = _
    rw [unexpandAux_cons, if_pos (by decide : c5O.eid ≠ 0)]
    have hsg : sameGroup (weigh c5O) c5R = true := by decide
    have hhead : unweigh (scanAcc (weigh c5O) [c5R]) = c5U := by
      have hfil : [c5R].filter (sameGroup (weigh c5O)) = [c5R] := by
        rw [List.filter_cons_of_pos hsg]
        rfl
      unfold scanAcc
      rw [hfil]
      show unweigh (addInto (weigh c5O) c5R) = c5U
      norm_num [unweigh, addInto, weigh, recomputeBa, c5O, c5R, c5U, baK]
    have hmark : scanMark (weigh c5O) [c5R] = [consume c5R] := by
      rw [scanMark_of_all _ _
        (fun x hx => by rw [List.mem_singleton] at hx; subst hx; exact hsg)]
      rfl
    have htail : (unexpandAux (scanMark (weigh c5O) [c5R])).filter
        (fun t => t.tph ≠ 0) = [] := by
      rw [hmark]
      exact unexpandAux_dead [consume c5R].length [consume c5R] rfl
        (fun c hc => by rw [List.mem_singleton] at hc; subst hc; rfl)
    rw [hhead, List.filter_cons_of_pos (by decide), htail]
    norm_num [c5U, c5rec, recomputeBa]

/-- Claim C5 (amended): expanding a tree list at a positive threshold and
immediately collapsing it (zero simulated years) reproduces every original
record in order — plot and tree identity, represented density, crown ratio
and crown base exactly, and diameter and height to within the jitter bound
`e` of the expansion's random draws (not merely floating-point tolerance)
— provided the original records have pairwise-distinct plot/tree
identities, zero expand ids and positive densities. -/
theorem expand_collapse_round_trip (rng : ℕ → ℚ) (thr e : ℚ) (l : List ScaleRec)
    (hthr : 0 < thr) (hrng : ∀ n, |rng n| ≤ e)
    (hdist : l.Pairwise (fun a b => a.plot ≠ b.plot ∨ a.tid ≠ b.tid))
    (hrec : ∀ t ∈ l, t.eid = 0 ∧ 0 < t.tph) :
    List.Forall₂ (roundTripRel e) l (unexpand_tree_list (expand_tree_list rng thr l)) := by
  have h := unexpand_expandRec rng thr e hthr hrng l 0 [] (by simp) hdist hrec
  show List.Forall₂ (roundTripRel e) l
    ((unexpandAux (expand_tree_list rng thr l)).filter (fun t => t.tph ≠ 0))
  rw [expand_tree_list_eq]
  simpa using h

/-- Claim C5 witness: the concrete 80-trees/ha record round-trips to
within the jitter half-width 0.005 > 1/200 of the uniform draw. -/
theorem expand_collapse_round_trip_witness :
    List.Forall₂ (roundTripRel (1/200)) [c5rec]
      (unexpand_tree_list (expand_tree_list c5rng 50 [c5rec])) :=
  expand_collapse_round_trip c5rng 50 (1/200) [c5rec] (by norm_num)
    (fun n => by rw [show c5rng n = 1/250 from rfl, abs_of_pos (by norm_num)]; norm_num)
    (by simp)
    (fun t ht => by
      rw [List.mem_singleton] at ht
      subst ht
      exact ⟨rfl, by norm_num [c5rec, recomputeBa]⟩)

end ACD
